import Mathlib

/-!
Shallow embedding of the CPU-scheduling simulator (src/common.c, src/fcfs.c,
src/sjf.c, src/rr.c) and proofs about its four scheduling algorithms.

Modelling conventions.
* C `int` fields are modelled as unbounded `Int`; no claim under scrutiny
  concerns machine overflow, and the simulated quantities (times, bursts)
  are small nonnegative values in the intended domain.
* The process array is modelled as a `List Process`; in-place mutation of
  `processes[i]` becomes `List.set i`.
* `qsort` with the `compare_arrival_time` comparator (duplicated in
  fcfs.c, sjf.c and rr.c) is modelled as `List.insertionSort` by
  arrival time, a sort by the same key.
* The C loops `while (completed < n)` have no structural termination
  argument, so they are modelled with an explicit fuel parameter; fuel
  exhaustion is `none`, and a separate theorem shows the fuel supplied by
  the top-level functions always suffices on well-formed input.
* `float` metric averages are modelled over `ℚ`; no claim depends on
  floating-point representation.
* The C SJF selection uses `INT_MAX` as the initial sentinel for the best
  burst; the model uses `Option` for the accumulator instead, which agrees
  with the C code whenever all bursts are below `INT_MAX`.
-/

/-- The `Process` struct of src/common.h. -/
structure Process where
  id : String
  arrival_time : Int
  burst_time : Int
  priority : Int
  remaining_time : Int
  completion_time : Int
  turnaround_time : Int
  waiting_time : Int
  response_time : Int
  started : Bool
deriving Repr, DecidableEq

/-- Default element used for out-of-range list indexing (C array indexing is
only performed in bounds by the algorithms; invariants establish this). -/
def defaultProcess : Process :=
  { id := "", arrival_time := 0, burst_time := 0, priority := 0,
    remaining_time := 0, completion_time := 0, turnaround_time := 0,
    waiting_time := 0, response_time := 0, started := false }

instance : Inhabited Process := ⟨defaultProcess⟩

/-- The `Metrics` struct of src/common.h, with `float` modelled as `ℚ`. -/
structure Metrics where
  avg_turnaround_time : ℚ
  avg_waiting_time : ℚ
  avg_response_time : ℚ
deriving Repr, DecidableEq

/-- The static identity of a process: the fields never written by any
scheduler (id, arrival_time, burst_time, priority). -/
def statics (p : Process) : String × Int × Int × Int :=
  (p.id, p.arrival_time, p.burst_time, p.priority)

/-- Ordering used by the `compare_arrival_time` comparators (fcfs.c line 14,
sjf.c line 15, rr.c line 14): ascending arrival time. -/
def arrLe (a b : Process) : Prop := a.arrival_time ≤ b.arrival_time

instance : DecidableRel arrLe := fun a b => inferInstanceAs (Decidable (_ ≤ _))

instance : IsTotal Process arrLe := ⟨fun a b => Int.le_total _ _⟩

instance : IsTrans Process arrLe := ⟨fun _ _ _ h1 h2 => le_trans h1 h2⟩

/-- The `qsort(processes, n, sizeof(Process), compare_arrival_time)` calls. -/
def sortByArrival (ps : List Process) : List Process :=
  List.insertionSort arrLe ps

/-- The per-process body of `calculate_metrics` (common.c lines 126-129):
turnaround and waiting time are rewritten in place from completion time. -/
def setDerived (p : Process) : Process :=
  { p with
    turnaround_time := p.completion_time - p.arrival_time,
    waiting_time := (p.completion_time - p.arrival_time) - p.burst_time }

/-- `calculate_metrics` (common.c lines 120-143).  The C function mutates
each element of the array (turnaround and waiting time) and returns the
averages; the model returns the updated list together with the metrics. -/
def calculate_metrics (ps : List Process) : List Process × Metrics :=
  let updated := ps.map setDerived
  let n : ℚ := ps.length
  ( updated,
    { avg_turnaround_time := ((updated.map (fun p => (p.turnaround_time : ℚ))).sum) / n,
      avg_waiting_time := ((updated.map (fun p => (p.waiting_time : ℚ))).sum) / n,
      avg_response_time := ((updated.map (fun p => (p.response_time : ℚ))).sum) / n } )

/-- The `for` loop of `fcfs_schedule` (fcfs.c lines 37-53), running over the
arrival-sorted list with the current time as accumulator. -/
def fcfsLoop : Int → List Process → List Process
  | _, [] => []
  | t, p :: rest =>
    let t1 := if t < p.arrival_time then p.arrival_time else t
    let p2 := { p with
      response_time := t1 - p.arrival_time,
      started := true,
      completion_time := t1 + p.burst_time,
      remaining_time := 0 }
    p2 :: fcfsLoop (t1 + p.burst_time) rest

/-- `fcfs_schedule` (fcfs.c lines 30-57): sort by arrival, run every process
to completion in order, then compute metrics. -/
def fcfs_schedule (ps : List Process) : List Process × Metrics :=
  calculate_metrics (fcfsLoop 0 (sortByArrival ps))

/-! ### SJF selection scan

The SJF loops carry the process array together with the separate
`is_completed` boolean array (sjf.c line 38/115); the model pairs each
process with its completion flag. -/

/-- Eligibility test of the SJF selection loops (sjf.c lines 52-58 and
129-135): not completed and already arrived. -/
def elig (t : Int) (pd : Process × Bool) : Prop :=
  pd.2 = false ∧ pd.1.arrival_time ≤ t

instance (t : Int) (pd : Process × Bool) : Decidable (elig t pd) :=
  inferInstanceAs (Decidable (_ ∧ _))

/-- The selection scan of sjf.c (lines 52-58 and 129-135), parameterised by
the selection key (`burst_time` for SJF, `remaining_time` for SRTF): a
left-to-right scan keeping the first index that strictly improves the best
key so far.  `none` models the C sentinel pair `(-1, INT_MAX)`. -/
def findMinAux (key : Process → Int) (t : Int) :
    List (Process × Bool) → Nat → Option (Nat × Int) → Option (Nat × Int)
  | [], _, best => best
  | pd :: rest, i, best =>
    let improves : Bool :=
      decide (elig t pd) &&
        (match best with
         | none => true
         | some (_, b) => decide (key pd.1 < b))
    findMinAux key t rest (i + 1) (if improves then some (i, key pd.1) else best)

/-- Entry point of the selection scan: start at index 0 with the sentinel. -/
def findMinBy (key : Process → Int) (t : Int) (l : List (Process × Bool)) :
    Option (Nat × Int) :=
  findMinAux key t l 0 none

/-- The selection step of `sjf_non_preemptive_schedule` (sjf.c lines 47-58). -/
def findShortestJob (t : Int) (l : List (Process × Bool)) : Option (Nat × Int) :=
  findMinBy (fun p => p.burst_time) t l

/-- The selection step of `sjf_preemptive_schedule` (sjf.c lines 124-135). -/
def findShortestRemaining (t : Int) (l : List (Process × Bool)) : Option (Nat × Int) :=
  findMinBy (fun p => p.remaining_time) t l

/-- The idle-jump scan of sjf.c (lines 61-69 and 138-146): the minimum
arrival time among incomplete processes (`none` models the `INT_MAX`
sentinel when every process is complete). -/
def minArrivalIncomplete : List (Process × Bool) → Option Int
  | [] => none
  | pd :: rest =>
    let r := minArrivalIncomplete rest
    if pd.2 then r
    else
      match r with
      | none => some pd.1.arrival_time
      | some a => if pd.1.arrival_time < a then some pd.1.arrival_time else some a

/-- Default pair for out-of-range indexing in the SJF state. -/
def pdDefault : Process × Bool := (defaultProcess, false)

/-- The `while (completed < n)` loop of `sjf_non_preemptive_schedule`
(sjf.c lines 47-89), with explicit fuel.  The state is the current time and
the processes paired with their `is_completed` flags.  The final `none`
branch is unreachable (no incomplete process although `completed < n`); in
C it would set `current_time = INT_MAX` and loop, so the model returns
`none` (nontermination) there. -/
def sjfNPLoop : Nat → Int → List (Process × Bool) → Option (List Process)
  | 0, _, _ => none
  | fuel + 1, t, l =>
    if l.countP (fun pd => pd.2) = l.length then some (l.map Prod.fst)
    else
      match findShortestJob t l with
      | some (j, _) =>
        let p := (l.getD j pdDefault).1
        let p2 := { p with
          response_time := t - p.arrival_time,
          started := true,
          completion_time := t + p.burst_time,
          remaining_time := 0 }
        sjfNPLoop fuel (t + p.burst_time) (l.set j (p2, true))
      | none =>
        match minArrivalIncomplete l with
        | some t2 => sjfNPLoop fuel t2 l
        | none => none

/-- `sjf_non_preemptive_schedule` (sjf.c lines 32-95).  Each loop pass
either completes a process or idle-jumps directly to a time where one is
eligible, so `2 * n + 1` fuel always suffices (proved below). -/
def sjf_non_preemptive_schedule (ps : List Process) : Option (List Process × Metrics) :=
  let l0 := (sortByArrival ps).map (fun p => (p, false))
  (sjfNPLoop (2 * ps.length + 1) 0 l0).map calculate_metrics

/-- The `while (completed < n)` loop of `sjf_preemptive_schedule`
(sjf.c lines 124-171), with explicit fuel: one time unit per pass. -/
def srtfLoop : Nat → Int → List (Process × Bool) → Option (List Process)
  | 0, _, _ => none
  | fuel + 1, t, l =>
    if l.countP (fun pd => pd.2) = l.length then some (l.map Prod.fst)
    else
      match findShortestRemaining t l with
      | some (j, _) =>
        let p := (l.getD j pdDefault).1
        let p1 := if p.started then p
                  else { p with response_time := t - p.arrival_time, started := true }
        let p2 := { p1 with remaining_time := p1.remaining_time - 1 }
        if p2.remaining_time = 0 then
          srtfLoop fuel (t + 1) (l.set j ({ p2 with completion_time := t + 1 }, true))
        else
          srtfLoop fuel (t + 1) (l.set j (p2, false))
      | none =>
        match minArrivalIncomplete l with
        | some t2 => srtfLoop fuel t2 l
        | none => none

/-- Fuel bound for the SRTF loop: at most one idle jump between unit work
steps, and total work is the sum of the remaining times. -/
def srtfFuel (ps : List Process) : Nat :=
  2 * (ps.map (fun p => p.remaining_time.toNat)).sum + 1

/-- `sjf_preemptive_schedule` (sjf.c lines 109-177). -/
def sjf_preemptive_schedule (ps : List Process) : Option (List Process × Metrics) :=
  let l0 := (sortByArrival ps).map (fun p => (p, false))
  (srtfLoop (srtfFuel ps) 0 l0).map calculate_metrics

/-! ### Round Robin -/

/-- The arrival scan of `rr_schedule` (rr.c lines 168-171 and 203-206):
`while (next_arrival_idx < n && processes[next_arrival_idx].arrival_time <=
current_time) enqueue(...)`.  The ready queue is modelled as an unbounded
`List Nat` of indices; the C queue has capacity `n * 100` and never holds
more than `n` entries (each index occurs at most once), so `enqueue` never
fails in the C code. -/
def enqAux (procs : List Process) (tnow : Int) : Nat → List Nat → Nat → List Nat × Nat
  | 0, q, next => (q, next)
  | d + 1, q, next =>
    if next < procs.length then
      if (procs.getD next defaultProcess).arrival_time ≤ tnow then
        enqAux procs tnow d (q ++ [next]) (next + 1)
      else (q, next)
    else (q, next)

/-- Entry point of the arrival scan: the loop runs at most
`procs.length - next` times, which bounds the structural recursion. -/
def enqueueArrivals (procs : List Process) (tnow : Int) (q : List Nat) (next : Nat) :
    List Nat × Nat :=
  enqAux procs tnow (procs.length - next) q next

/-- Loop state of `rr_schedule`: current time, process array, ready queue of
indices, next arrival index, completed count. -/
structure RRState where
  t : Int
  procs : List Process
  queue : List Nat
  nextIdx : Nat
  completed : Nat
deriving Repr, DecidableEq

/-- Result of one pass of the `while (completed < n)` loop of `rr_schedule`:
either the loop exits (normally, or through the `break` of rr.c line 180)
or it continues with a new state. -/
inductive RRRes where
  | halt (procs : List Process)
  | step (s : RRState)
deriving Repr, DecidableEq

/-- The response-time update at dispatch (rr.c lines 190-193). -/
def rrTouch (t : Int) (p : Process) : Process :=
  if p.started then p
  else { p with response_time := t - p.arrival_time, started := true }

/-- `execution_time = (remaining_time < time_quantum) ? remaining_time :
time_quantum` (rr.c line 196). -/
def rrExecTime (tq : Int) (p : Process) : Int :=
  if p.remaining_time < tq then p.remaining_time else tq

/-- The dequeued process after one slice (rr.c lines 190-199): response
update at first dispatch, then the slice is subtracted from the remaining
time. -/
def rrExecP (tq t : Int) (p : Process) : Process :=
  { rrTouch t p with
    remaining_time := (rrTouch t p).remaining_time - rrExecTime tq (rrTouch t p) }

/-- One pass of the `while (completed < n)` loop of `rr_schedule`
(rr.c lines 166-216): enqueue arrivals, idle-jump or dequeue, run for
`min(remaining_time, time_quantum)`, enqueue arrivals that came during the
slice, then either record completion or re-enqueue at the tail. -/
def rrStep (tq : Int) (s : RRState) : RRRes :=
  if s.completed = s.procs.length then .halt s.procs
  else
    match enqueueArrivals s.procs s.t s.queue s.nextIdx with
    | ([], n1) =>
      if n1 < s.procs.length then
        .step { s with t := (s.procs.getD n1 defaultProcess).arrival_time,
                       queue := [], nextIdx := n1 }
      else
        .halt s.procs
    | (j :: qrest, n1) =>
      let p2 := rrExecP tq s.t (s.procs.getD j defaultProcess)
      let t2 := s.t + rrExecTime tq (rrTouch s.t (s.procs.getD j defaultProcess))
      let procs2 := s.procs.set j p2
      let en2 := enqueueArrivals procs2 t2 qrest n1
      if p2.remaining_time = 0 then
        .step { t := t2, procs := procs2.set j { p2 with completion_time := t2 },
                queue := en2.1, nextIdx := en2.2, completed := s.completed + 1 }
      else
        .step { t := t2, procs := procs2, queue := en2.1 ++ [j],
                nextIdx := en2.2, completed := s.completed }

/-- The `while (completed < n)` loop of `rr_schedule`, with explicit fuel. -/
def rrLoop (tq : Int) : Nat → RRState → Option (List Process)
  | 0, _ => none
  | fuel + 1, s =>
    match rrStep tq s with
    | .halt ps => some ps
    | .step s2 => rrLoop tq fuel s2

/-- Initial loop state of `rr_schedule` (rr.c lines 147-163). -/
def rrInit (ps : List Process) : RRState :=
  { t := 0, procs := sortByArrival ps, queue := [], nextIdx := 0, completed := 0 }

/-- Fuel bound for the RR loop: with a positive quantum each slice performs
at least one unit of work, and idle jumps are never consecutive. -/
def rrFuel (ps : List Process) : Nat :=
  2 * (ps.map (fun p => p.remaining_time.toNat)).sum + 2

/-- `rr_schedule` (rr.c lines 136-223). -/
def rr_schedule (ps : List Process) (tq : Int) : Option (List Process × Metrics) :=
  (rrLoop tq (rrFuel ps) (rrInit ps)).map calculate_metrics

/-- The process array produced by a single RR loop pass (projection of
`rrStep` used to observe state mutation). -/
def rrStepProcs (tq : Int) (s : RRState) : List Process :=
  match rrStep tq s with
  | .halt ps => ps
  | .step s2 => s2.procs

/-- Well-formed process set: the data-model invariants of spec section 3 for
a freshly loaded process record (common.c lines 67-73): nonnegative
arrival, positive burst, remaining time initialised to the burst time, not
yet started. -/
def WellFormed (ps : List Process) : Prop :=
  ∀ p ∈ ps, 0 ≤ p.arrival_time ∧ 1 ≤ p.burst_time ∧
    p.remaining_time = p.burst_time ∧ p.started = false

instance (ps : List Process) : Decidable (WellFormed ps) :=
  inferInstanceAs (Decidable (∀ p ∈ ps, _))

/-- The three processes of the concrete scenario in spec section 8. -/
def exP1 : Process :=
  { id := "P1", arrival_time := 0, burst_time := 5, priority := 0,
    remaining_time := 5, completion_time := 0, turnaround_time := 0,
    waiting_time := 0, response_time := -1, started := false }

/-- Second process of the concrete scenario. -/
def exP2 : Process :=
  { id := "P2", arrival_time := 1, burst_time := 3, priority := 0,
    remaining_time := 3, completion_time := 0, turnaround_time := 0,
    waiting_time := 0, response_time := -1, started := false }

/-- Third process of the concrete scenario. -/
def exP3 : Process :=
  { id := "P3", arrival_time := 2, burst_time := 8, priority := 0,
    remaining_time := 8, completion_time := 0, turnaround_time := 0,
    waiting_time := 0, response_time := -1, started := false }

/-- The concrete example process set. -/
def exSet : List Process := [exP1, exP2, exP3]

/-! ### Generic list lemmas used throughout the development -/

theorem getD_set_self {α : Type} (l : List α) (j : Nat) (a d : α) (h : j < l.length) :
    (l.set j a).getD j d = a := by
  induction l generalizing j with
  | nil => simp at h
  | cons x xs ih =>
    cases j with
    | zero => rfl
    | succ k => simpa [List.set, List.getD] using ih k (by simpa using h)

theorem getD_set_ne {α : Type} (l : List α) (i j : Nat) (a d : α) (h : i ≠ j) :
    (l.set j a).getD i d = l.getD i d := by
  induction l generalizing i j with
  | nil => rfl
  | cons x xs ih =>
    cases j with
    | zero =>
      cases i with
      | zero => exact absurd rfl h
      | succ k => rfl
    | succ m =>
      cases i with
      | zero => rfl
      | succ k => simpa [List.set, List.getD] using ih k m (by omega)

theorem countP_set_eq {α : Type} (p : α → Bool) (l : List α) (j : Nat) (a d : α)
    (h : j < l.length) :
    (l.set j a).countP p + (if p (l.getD j d) then 1 else 0)
      = l.countP p + (if p a then 1 else 0) := by
  induction l generalizing j with
  | nil => simp at h
  | cons x xs ih =>
    cases j with
    | zero =>
      simp only [List.set, List.getD_cons_zero, List.countP_cons]
      omega
    | succ k =>
      have := ih k (by simpa using h)
      simp only [List.set, List.getD_cons_succ, List.countP_cons]
      omega

theorem mapsum_set {α : Type} (f : α → Nat) (l : List α) (j : Nat) (a d : α)
    (h : j < l.length) :
    ((l.set j a).map f).sum + f (l.getD j d) = (l.map f).sum + f a := by
  induction l generalizing j with
  | nil => simp at h
  | cons x xs ih =>
    cases j with
    | zero => simp [List.set]; omega
    | succ k =>
      have := ih k (by simpa using h)
      simp only [List.set, List.getD_cons_succ, List.map_cons, List.sum_cons]
      omega

theorem mem_nat_le_sum (l : List Nat) (a : Nat) (h : a ∈ l) : a ≤ l.sum := by
  induction l with
  | nil => simp at h
  | cons x xs ih =>
    rcases List.mem_cons.1 h with rfl | hx
    · simp
    · have := ih hx; simp; omega

theorem getD_append_right {α : Type} (pre suf : List α) (i : Nat) (d : α) :
    (pre ++ suf).getD (pre.length + i) d = suf.getD i d := by
  induction pre with
  | nil => simp [List.getD]
  | cons x xs ih =>
    have hidx : x :: xs ++ suf = x :: (xs ++ suf) := rfl
    have hlen : (x :: xs).length + i = (xs.length + i) + 1 := by
      simp [List.length_cons]; omega
    rw [hidx, hlen, List.getD_cons_succ, ih]

theorem getD_append_left {α : Type} (pre suf : List α) (i : Nat) (d : α)
    (h : i < pre.length) : (pre ++ suf).getD i d = pre.getD i d := by
  induction pre generalizing i with
  | nil => simp at h
  | cons x xs ih =>
    cases i with
    | zero => rfl
    | succ k => simpa [List.getD] using ih k (by simpa using h)

theorem set_append_mid {α : Type} (pre : List α) (x y : α) (suf : List α) :
    (pre ++ x :: suf).set pre.length y = pre ++ y :: suf := by
  induction pre with
  | nil => rfl
  | cons z zs ih => simp [List.set, ih]

theorem ones_le_sum {α : Type} (f : α → Nat) (l : List α) (h : ∀ x ∈ l, 1 ≤ f x) :
    l.length ≤ (l.map f).sum := by
  induction l with
  | nil => simp
  | cons x xs ih =>
    have h1 := h x (by simp)
    have h2 := ih (fun y hy => h y (List.mem_cons_of_mem _ hy))
    simp only [List.map_cons, List.sum_cons, List.length_cons]
    omega

/-! ### Characterisation of the SJF selection scan

`findMinAux` is a left-to-right scan with an accumulator (as in the C
code); `findMinList` is the structurally recursive equivalent used for
reasoning, and the two are proved equal. -/

/-- Shift the index component of a scan result. -/
def shiftIdx (i : Nat) : Option (Nat × Int) → Option (Nat × Int)
  | none => none
  | some (j, b) => some (j + i, b)

/-- Combine two scan results: keep the first unless the second has a
strictly smaller key (the C update rule `key < best`). -/
def combineBest : Option (Nat × Int) → Option (Nat × Int) → Option (Nat × Int)
  | none, r => r
  | some jb, none => some jb
  | some (j, b), some (j2, b2) => if b2 < b then some (j2, b2) else some (j, b)

/-- Structural version of the selection scan: the leftmost index with the
minimal key among eligible entries. -/
def findMinList (key : Process → Int) (t : Int) : List (Process × Bool) → Option (Nat × Int)
  | [] => none
  | pd :: rest =>
    let r := shiftIdx 1 (findMinList key t rest)
    if elig t pd then combineBest (some (0, key pd.1)) r else r

theorem combineBest_none_right (a : Option (Nat × Int)) : combineBest a none = a := by
  cases a with
  | none => rfl
  | some jb => cases jb; rfl

theorem shiftIdx_shiftIdx (i : Nat) (o : Option (Nat × Int)) :
    shiftIdx i (shiftIdx 1 o) = shiftIdx (i + 1) o := by
  cases o with
  | none => rfl
  | some jb => cases jb with | mk j b => simp [shiftIdx]; omega

theorem shiftIdx_combineBest (i : Nat) (a b : Option (Nat × Int)) :
    shiftIdx i (combineBest a b) = combineBest (shiftIdx i a) (shiftIdx i b) := by
  cases a with
  | none => rfl
  | some jb =>
    cases jb with
    | mk j v =>
      cases b with
      | none => rfl
      | some jb2 =>
        cases jb2 with
        | mk j2 v2 =>
          by_cases h : v2 < v
          · simp [combineBest, shiftIdx, h]
          · simp [combineBest, shiftIdx, h]

theorem combineBest_assoc (a b c : Option (Nat × Int)) :
    combineBest a (combineBest b c) = combineBest (combineBest a b) c := by
  cases a with
  | none => rfl
  | some jb1 =>
    cases jb1 with
    | mk j1 v1 =>
      cases b with
      | none => rw [combineBest_none_right]; rfl
      | some jb2 =>
        cases jb2 with
        | mk j2 v2 =>
          cases c with
          | none => rw [combineBest_none_right, combineBest_none_right]
          | some jb3 =>
            cases jb3 with
            | mk j3 v3 =>
              by_cases h23 : v3 < v2
              · by_cases h12 : v2 < v1
                · simp [combineBest, h23, h12, show v3 < v1 by omega]
                · simp [combineBest, h23, h12]
              · by_cases h12 : v2 < v1
                · simp [combineBest, h23, h12]
                · simp [combineBest, h23, h12, show ¬(v3 < v1) by omega]

theorem findMinAux_eq_findMinList (key : Process → Int) (t : Int) :
    ∀ (l : List (Process × Bool)) (i : Nat) (best : Option (Nat × Int)),
      findMinAux key t l i best = combineBest best (shiftIdx i (findMinList key t l)) := by
  intro l
  induction l with
  | nil =>
    intro i best
    rw [show findMinList key t [] = none from rfl]
    rw [show shiftIdx i none = none from rfl, combineBest_none_right]
    rfl
  | cons pd rest ih =>
    intro i best
    rw [show findMinAux key t (pd :: rest) i best
        = findMinAux key t rest (i + 1)
            (if (decide (elig t pd) &&
                  (match best with
                   | none => true
                   | some (_, b) => decide (key pd.1 < b)))
             then some (i, key pd.1) else best) from rfl]
    rw [ih]
    by_cases he : elig t pd
    · rw [show findMinList key t (pd :: rest)
          = combineBest (some (0, key pd.1)) (shiftIdx 1 (findMinList key t rest)) by
            simp [findMinList, he]]
      rw [shiftIdx_combineBest, shiftIdx_shiftIdx]
      rw [show shiftIdx i (some (0, key pd.1)) = some (i, key pd.1) by simp [shiftIdx]]
      rw [combineBest_assoc]
      congr 1
      cases best with
      | none => simp [he, combineBest]
      | some jb =>
        cases jb with
        | mk j0 b0 =>
          by_cases hlt : key pd.1 < b0
          · simp [he, hlt, combineBest]
          · simp [he, hlt, combineBest]
    · rw [show findMinList key t (pd :: rest) = shiftIdx 1 (findMinList key t rest) by
            simp [findMinList, he]]
      rw [shiftIdx_shiftIdx]
      congr 1
      cases best with
      | none => simp [he]
      | some jb => simp [he]

theorem findMinBy_eq (key : Process → Int) (t : Int) (l : List (Process × Bool)) :
    findMinBy key t l = findMinList key t l := by
  rw [findMinBy, findMinAux_eq_findMinList]
  cases h : findMinList key t l with
  | none => rfl
  | some jb => cases jb with | mk j b => simp [shiftIdx, combineBest]

theorem findMinList_eq_none (key : Process → Int) (t : Int) (l : List (Process × Bool)) :
    findMinList key t l = none ↔ ∀ pd ∈ l, ¬ elig t pd := by
  induction l with
  | nil => simp [findMinList]
  | cons pd rest ih =>
    by_cases he : elig t pd
    · rw [show findMinList key t (pd :: rest)
          = combineBest (some (0, key pd.1)) (shiftIdx 1 (findMinList key t rest)) by
            simp [findMinList, he]]
      constructor
      · intro h
        exfalso
        cases hr : findMinList key t rest with
        | none => rw [hr] at h; simp [shiftIdx, combineBest] at h
        | some jb =>
          cases jb with
          | mk j b =>
            rw [hr] at h
            simp only [shiftIdx, combineBest] at h
            split at h <;> simp at h
      · intro h
        exact absurd he (h pd (by simp))
    · rw [show findMinList key t (pd :: rest) = shiftIdx 1 (findMinList key t rest) by
            simp [findMinList, he]]
      cases hr : findMinList key t rest with
      | none =>
        simp only [shiftIdx]
        constructor
        · intro _ q hq
          rcases List.mem_cons.1 hq with rfl | hq2
          · exact he
          · exact (ih.1 hr) q hq2
        · intro _; trivial
      | some jb =>
        cases jb with
        | mk j b =>
          simp only [shiftIdx]
          constructor
          · intro h; exact absurd h (by simp)
          · intro h
            have : findMinList key t rest = none :=
              ih.2 (fun q hq => h q (List.mem_cons_of_mem _ hq))
            rw [this] at hr; exact absurd hr (by simp)


theorem getD_mem {α : Type} (l : List α) (k : Nat) (d : α) (h : k < l.length) :
    l.getD k d ∈ l := by
  induction l generalizing k with
  | nil => simp at h
  | cons x xs ih =>
    cases k with
    | zero => simp [List.getD_cons_zero]
    | succ m =>
      rw [List.getD_cons_succ]
      exact List.mem_cons_of_mem _ (ih m (by simpa using h))

theorem findMinList_some_spec (key : Process → Int) (t : Int) :
    ∀ (l : List (Process × Bool)) (j : Nat) (b : Int),
      findMinList key t l = some (j, b) →
      j < l.length ∧ elig t (l.getD j pdDefault) ∧ b = key (l.getD j pdDefault).1 ∧
      (∀ i, i < l.length → elig t (l.getD i pdDefault) → b ≤ key (l.getD i pdDefault).1) ∧
      (∀ i, i < j → elig t (l.getD i pdDefault) → b < key (l.getD i pdDefault).1) := by
  intro l
  induction l with
  | nil => intro j b h; simp [findMinList] at h
  | cons pd rest ih =>
    intro j b h
    by_cases he : elig t pd
    · rw [show findMinList key t (pd :: rest)
          = combineBest (some (0, key pd.1)) (shiftIdx 1 (findMinList key t rest)) by
            simp [findMinList, he]] at h
      cases hr : findMinList key t rest with
      | none =>
        rw [hr] at h
        simp only [shiftIdx, combineBest, Option.some.injEq, Prod.mk.injEq] at h
        obtain ⟨rfl, rfl⟩ := h
        refine ⟨by simp, by simpa [List.getD_cons_zero] using he, by simp [List.getD_cons_zero],
          ?_, ?_⟩
        · intro i hi hel
          cases i with
          | zero => simp [List.getD_cons_zero]
          | succ k =>
            exfalso
            rw [List.getD_cons_succ] at hel
            exact (findMinList_eq_none key t rest).1 hr _
              (getD_mem rest k pdDefault (by simpa using hi)) hel
        · intro i hi; omega
      | some jb =>
        cases jb with
        | mk jr br =>
          rw [hr] at h
          simp only [shiftIdx, combineBest] at h
          obtain ⟨h1, h2, h3, h4, h5⟩ := ih jr br hr
          by_cases hlt : br < key pd.1
          · rw [if_pos hlt] at h
            simp only [Option.some.injEq, Prod.mk.injEq] at h
            obtain ⟨rfl, rfl⟩ := h
            refine ⟨by simpa using h1, by simpa [List.getD_cons_succ] using h2,
              by simpa [List.getD_cons_succ] using h3, ?_, ?_⟩
            · intro i hi hel
              cases i with
              | zero =>
                rw [List.getD_cons_zero] at hel ⊢
                omega
              | succ k =>
                rw [List.getD_cons_succ] at hel ⊢
                exact h4 k (by simpa using hi) hel
            · intro i hi hel
              cases i with
              | zero =>
                rw [List.getD_cons_zero] at hel ⊢
                omega
              | succ k =>
                rw [List.getD_cons_succ] at hel ⊢
                exact h5 k (by omega) hel
          · rw [if_neg hlt] at h
            simp only [Option.some.injEq, Prod.mk.injEq] at h
            obtain ⟨rfl, rfl⟩ := h
            refine ⟨by simp, by simpa [List.getD_cons_zero] using he,
              by simp [List.getD_cons_zero], ?_, ?_⟩
            · intro i hi hel
              cases i with
              | zero => simp [List.getD_cons_zero]
              | succ k =>
                rw [List.getD_cons_succ] at hel ⊢
                have := h4 k (by simpa using hi) hel
                omega
            · intro i hi; omega
    · rw [show findMinList key t (pd :: rest) = shiftIdx 1 (findMinList key t rest) by
            simp [findMinList, he]] at h
      cases hr : findMinList key t rest with
      | none => rw [hr] at h; simp [shiftIdx] at h
      | some jb =>
        cases jb with
        | mk jr br =>
          rw [hr] at h
          simp only [shiftIdx, Option.some.injEq, Prod.mk.injEq] at h
          obtain ⟨rfl, rfl⟩ := h
          obtain ⟨h1, h2, h3, h4, h5⟩ := ih jr br hr
          refine ⟨by simpa using h1, by simpa [List.getD_cons_succ] using h2,
            by simpa [List.getD_cons_succ] using h3, ?_, ?_⟩
          · intro i hi hel
            cases i with
            | zero => rw [List.getD_cons_zero] at hel; exact absurd hel he
            | succ k =>
              rw [List.getD_cons_succ] at hel ⊢
              exact h4 k (by simpa using hi) hel
          · intro i hi hel
            cases i with
            | zero => rw [List.getD_cons_zero] at hel; exact absurd hel he
            | succ k =>
              rw [List.getD_cons_succ] at hel ⊢
              exact h5 k (by omega) hel

theorem minArr_cons_done (pd : Process × Bool) (rest : List (Process × Bool))
    (hd : pd.2 = true) :
    minArrivalIncomplete (pd :: rest) = minArrivalIncomplete rest := by
  simp [minArrivalIncomplete, hd]

theorem minArr_cons_nil (pd : Process × Bool) (rest : List (Process × Bool))
    (hd : pd.2 = false) (hr : minArrivalIncomplete rest = none) :
    minArrivalIncomplete (pd :: rest) = some pd.1.arrival_time := by
  simp [minArrivalIncomplete, hd, hr]

theorem minArr_cons_some (pd : Process × Bool) (rest : List (Process × Bool)) (a : Int)
    (hd : pd.2 = false) (hr : minArrivalIncomplete rest = some a) :
    minArrivalIncomplete (pd :: rest)
      = some (if pd.1.arrival_time < a then pd.1.arrival_time else a) := by
  simp only [minArrivalIncomplete, hd, Bool.false_eq_true, if_false, hr]
  split <;> simp_all

theorem minArrivalIncomplete_eq_none (l : List (Process × Bool)) :
    minArrivalIncomplete l = none ↔ ∀ pd ∈ l, pd.2 = true := by
  induction l with
  | nil => simp [minArrivalIncomplete]
  | cons pd rest ih =>
    by_cases hd : pd.2
    · rw [minArr_cons_done pd rest hd]
      constructor
      · intro h q hq
        rcases List.mem_cons.1 hq with rfl | hq2
        · exact hd
        · exact ih.1 h q hq2
      · intro h
        exact ih.2 (fun q hq => h q (List.mem_cons_of_mem _ hq))
    · have hdf : pd.2 = false := by simpa using hd
      constructor
      · intro h
        exfalso
        cases hr : minArrivalIncomplete rest with
        | none => rw [minArr_cons_nil pd rest hdf hr] at h; exact Option.noConfusion h
        | some a => rw [minArr_cons_some pd rest a hdf hr] at h; exact Option.noConfusion h
      · intro h
        exact absurd (h pd (by simp)) (by simpa using hd)

theorem minArrivalIncomplete_some_spec :
    ∀ (l : List (Process × Bool)) (a : Int),
      minArrivalIncomplete l = some a →
      (∃ pd ∈ l, pd.2 = false ∧ pd.1.arrival_time = a) ∧
      (∀ pd ∈ l, pd.2 = false → a ≤ pd.1.arrival_time) := by
  intro l
  induction l with
  | nil => intro a h; exact Option.noConfusion h
  | cons pd rest ih =>
    intro a h
    by_cases hd : pd.2
    · rw [minArr_cons_done pd rest hd] at h
      obtain ⟨⟨q, hq, hq2, hq3⟩, hall⟩ := ih a h
      refine ⟨⟨q, List.mem_cons_of_mem _ hq, hq2, hq3⟩, ?_⟩
      intro r hr hr2
      rcases List.mem_cons.1 hr with rfl | hr3
      · exact absurd hd (by simp [hr2])
      · exact hall r hr3 hr2
    · have hdf : pd.2 = false := by simpa using hd
      cases hr : minArrivalIncomplete rest with
      | none =>
        rw [minArr_cons_nil pd rest hdf hr] at h
        obtain rfl : pd.1.arrival_time = a := Option.some.injEq .. ▸ h
        refine ⟨⟨pd, by simp, hdf, rfl⟩, ?_⟩
        intro r hrm hr2
        rcases List.mem_cons.1 hrm with rfl | hr3
        · exact le_refl _
        · exact absurd hr2 (by simp [(minArrivalIncomplete_eq_none rest).1 hr r hr3])
      | some v =>
        rw [minArr_cons_some pd rest v hdf hr] at h
        obtain ⟨⟨q, hq, hq2, hq3⟩, hall⟩ := ih v hr
        have hval : (if pd.1.arrival_time < v then pd.1.arrival_time else v) = a := by
          exact Option.some.injEq .. ▸ h
        by_cases hlt : pd.1.arrival_time < v
        · rw [if_pos hlt] at hval
          subst hval
          refine ⟨⟨pd, by simp, hdf, rfl⟩, ?_⟩
          intro r hrm hr2
          rcases List.mem_cons.1 hrm with rfl | hr3
          · exact le_refl _
          · exact le_trans (le_of_lt hlt) (hall r hr3 hr2)
        · rw [if_neg hlt] at hval
          subst hval
          refine ⟨⟨q, List.mem_cons_of_mem _ hq, hq2, hq3⟩, ?_⟩
          intro r hrm hr2
          rcases List.mem_cons.1 hrm with rfl | hr3
          · omega
          · exact hall r hr3 hr2

/-! ### FCFS loop facts -/

theorem fcfsLoop_out : ∀ (t : Int) (l : List Process),
    (fcfsLoop t l).length = l.length ∧
    (fcfsLoop t l).map statics = l.map statics ∧
    ∀ q ∈ fcfsLoop t l, q.remaining_time = 0 ∧
      q.response_time = q.completion_time - q.arrival_time - q.burst_time ∧
      (1 ≤ q.burst_time → q.arrival_time ≤ q.completion_time) := by
  intro t l
  induction l generalizing t with
  | nil => exact ⟨rfl, rfl, by intro q hq; simp [fcfsLoop] at hq⟩
  | cons p rest ih =>
    have hstep : fcfsLoop t (p :: rest)
        = { p with response_time := (if t < p.arrival_time then p.arrival_time else t) - p.arrival_time,
                   started := true,
                   completion_time := (if t < p.arrival_time then p.arrival_time else t) + p.burst_time,
                   remaining_time := 0 }
          :: fcfsLoop ((if t < p.arrival_time then p.arrival_time else t) + p.burst_time) rest := rfl
    obtain ⟨ihl, ihs, ihq⟩ := ih ((if t < p.arrival_time then p.arrival_time else t) + p.burst_time)
    rw [hstep]
    refine ⟨by simpa using ihl, by simpa [statics] using ihs, ?_⟩
    intro q hq
    rcases List.mem_cons.1 hq with rfl | hq2
    · refine ⟨rfl, by simp; ring, ?_⟩
      intro hb
      have hb2 : 1 ≤ p.burst_time := by simpa using hb
      show p.arrival_time ≤ (if t < p.arrival_time then p.arrival_time else t) + p.burst_time
      split <;> omega
    · exact ihq q hq2

/-! ### SJF non-preemptive loop: invariant, termination -/

/-- Invariant carried through the non-preemptive SJF loop: bursts stay
positive, and a completed process has been given a consistent completion
record. -/
def NPInv (l : List (Process × Bool)) : Prop :=
  ∀ pd ∈ l, 1 ≤ pd.1.burst_time ∧
    (pd.2 = true → pd.1.remaining_time = 0 ∧
      pd.1.arrival_time ≤ pd.1.completion_time ∧
      pd.1.response_time = pd.1.completion_time - pd.1.arrival_time - pd.1.burst_time)

theorem findShortestJob_some (t : Int) (l : List (Process × Bool)) (j : Nat) (b : Int)
    (h : findShortestJob t l = some (j, b)) :
    j < l.length ∧ elig t (l.getD j pdDefault) ∧ b = (l.getD j pdDefault).1.burst_time ∧
    (∀ i, i < l.length → elig t (l.getD i pdDefault) → b ≤ (l.getD i pdDefault).1.burst_time) ∧
    (∀ i, i < j → elig t (l.getD i pdDefault) → b < (l.getD i pdDefault).1.burst_time) := by
  rw [findShortestJob, findMinBy_eq] at h
  exact findMinList_some_spec _ t l j b h

theorem findShortestRemaining_some (t : Int) (l : List (Process × Bool)) (j : Nat) (b : Int)
    (h : findShortestRemaining t l = some (j, b)) :
    j < l.length ∧ elig t (l.getD j pdDefault) ∧ b = (l.getD j pdDefault).1.remaining_time ∧
    (∀ i, i < l.length → elig t (l.getD i pdDefault) → b ≤ (l.getD i pdDefault).1.remaining_time) := by
  rw [findShortestRemaining, findMinBy_eq] at h
  obtain ⟨h1, h2, h3, h4, _⟩ := findMinList_some_spec _ t l j b h
  exact ⟨h1, h2, h3, h4⟩

theorem findMinBy_none (key : Process → Int) (t : Int) (l : List (Process × Bool))
    (h : findMinBy key t l = none) : ∀ pd ∈ l, ¬ elig t pd := by
  rw [findMinBy_eq] at h
  exact (findMinList_eq_none key t l).1 h

theorem findMinBy_isSome (key : Process → Int) (t : Int) (l : List (Process × Bool))
    (pd : Process × Bool) (hm : pd ∈ l) (he : elig t pd) :
    (findMinBy key t l).isSome := by
  cases h : findMinBy key t l with
  | none => exact absurd he (findMinBy_none key t l h pd hm)
  | some jb => rfl

/-- The completion record written by the non-preemptive SJF loop (sjf.c
lines 72-84): response time at dispatch, run to completion in one step. -/
def npFinish (t : Int) (p : Process) : Process :=
  { p with
    response_time := t - p.arrival_time,
    started := true,
    completion_time := t + p.burst_time,
    remaining_time := 0 }

theorem npFinish_burst (t : Int) (p : Process) : (npFinish t p).burst_time = p.burst_time := rfl

theorem npFinish_arrival (t : Int) (p : Process) :
    (npFinish t p).arrival_time = p.arrival_time := rfl

theorem npFinish_remaining (t : Int) (p : Process) : (npFinish t p).remaining_time = 0 := rfl

theorem npFinish_completion (t : Int) (p : Process) :
    (npFinish t p).completion_time = t + p.burst_time := rfl

theorem npFinish_response (t : Int) (p : Process) :
    (npFinish t p).response_time = t - p.arrival_time := rfl

theorem npFinish_statics (t : Int) (p : Process) : statics (npFinish t p) = statics p := rfl

/-- One completion step of the non-preemptive SJF loop preserves the
invariant. -/
theorem NPInv_step (t : Int) (l : List (Process × Bool)) (j : Nat) (b : Int)
    (hfind : findShortestJob t l = some (j, b)) (hinv : NPInv l) :
    NPInv (l.set j (npFinish t (l.getD j pdDefault).1, true)) := by
  obtain ⟨hj, ⟨_, harr⟩, _, _, _⟩ := findShortestJob_some t l j b hfind
  intro pd hpd
  rcases List.mem_or_eq_of_mem_set hpd with hmem | rfl
  · exact hinv pd hmem
  · have hb := (hinv _ (getD_mem l j pdDefault hj)).1
    refine ⟨?_, fun _ => ⟨?_, ?_, ?_⟩⟩
    · show 1 ≤ (npFinish t (l.getD j pdDefault).1).burst_time
      rw [npFinish_burst]
      exact hb
    · exact npFinish_remaining t (l.getD j pdDefault).1
    · show (npFinish t (l.getD j pdDefault).1).arrival_time
        ≤ (npFinish t (l.getD j pdDefault).1).completion_time
      rw [npFinish_arrival, npFinish_completion]
      omega
    · show (npFinish t (l.getD j pdDefault).1).response_time
        = (npFinish t (l.getD j pdDefault).1).completion_time
          - (npFinish t (l.getD j pdDefault).1).arrival_time
          - (npFinish t (l.getD j pdDefault).1).burst_time
      rw [npFinish_response, npFinish_completion, npFinish_arrival, npFinish_burst]
      ring

/-- Step equation: loop exit when every process is completed. -/
theorem sjfNPLoop_done (fuel : Nat) (t : Int) (l : List (Process × Bool))
    (hc : l.countP (fun pd => pd.2) = l.length) :
    sjfNPLoop (fuel + 1) t l = some (l.map Prod.fst) := by
  rw [sjfNPLoop, if_pos hc]

/-- Step equation: a process is selected and runs to completion. -/
theorem sjfNPLoop_select (fuel : Nat) (t : Int) (l : List (Process × Bool))
    (j : Nat) (b : Int)
    (hc : ¬ l.countP (fun pd => pd.2) = l.length)
    (hf : findShortestJob t l = some (j, b)) :
    sjfNPLoop (fuel + 1) t l
      = sjfNPLoop fuel (t + (l.getD j pdDefault).1.burst_time)
          (l.set j (npFinish t (l.getD j pdDefault).1, true)) := by
  rw [sjfNPLoop, if_neg hc, hf]
  rfl

/-- Step equation: no eligible process, idle-jump to the next arrival. -/
theorem sjfNPLoop_idle (fuel : Nat) (t t2 : Int) (l : List (Process × Bool))
    (hc : ¬ l.countP (fun pd => pd.2) = l.length)
    (hf : findShortestJob t l = none)
    (hm : minArrivalIncomplete l = some t2) :
    sjfNPLoop (fuel + 1) t l = sjfNPLoop fuel t2 l := by
  rw [sjfNPLoop, if_neg hc, hf, hm]

/-- Fuel monotonicity for the non-preemptive SJF loop. -/
theorem sjfNPLoop_mono : ∀ (fuel : Nat) (t : Int) (l : List (Process × Bool))
    (out : List Process), sjfNPLoop fuel t l = some out →
    sjfNPLoop (fuel + 1) t l = some out := by
  intro fuel
  induction fuel with
  | zero => intro t l out h; exact Option.noConfusion h
  | succ f ih =>
    intro t l out h
    by_cases hc : l.countP (fun pd => pd.2) = l.length
    · rw [sjfNPLoop_done f t l hc] at h
      rw [sjfNPLoop_done (f + 1) t l hc]
      exact h
    · cases hf : findShortestJob t l with
      | some jb =>
        cases jb with
        | mk j b =>
          rw [sjfNPLoop_select f t l j b hc hf] at h
          rw [sjfNPLoop_select (f + 1) t l j b hc hf]
          exact ih _ _ _ h
      | none =>
        cases hm : minArrivalIncomplete l with
        | some t2 =>
          rw [sjfNPLoop_idle f t t2 l hc hf hm] at h
          rw [sjfNPLoop_idle (f + 1) t t2 l hc hf hm]
          exact ih _ _ _ h
        | none =>
          rw [sjfNPLoop, if_neg hc, hf, hm] at h
          exact Option.noConfusion h

theorem set_same {α : Type} (l : List α) (j : Nat) (d : α) (h : j < l.length) :
    l.set j (l.getD j d) = l := by
  induction l generalizing j with
  | nil => rfl
  | cons x xs ih =>
    cases j with
    | zero => rfl
    | succ k =>
      have h2 : k < xs.length := by simpa using h
      show x :: xs.set k (xs.getD k d) = x :: xs
      rw [ih k h2]

theorem exists_incomplete (l : List (Process × Bool))
    (hc : ¬ l.countP (fun pd => pd.2) = l.length) : ∃ pd ∈ l, pd.2 = false := by
  by_contra h
  push_neg at h
  exact hc (List.countP_eq_length.2 (fun pd hpd => by
    have := h pd hpd
    cases hb : pd.2 with
    | false => exact absurd hb this
    | true => rfl))

/-- Completing a previously incomplete process raises the completed count
by one. -/
theorem countP_finish (l : List (Process × Bool)) (j : Nat) (q : Process × Bool)
    (hj : j < l.length) (hdone : (l.getD j pdDefault).2 = false) (hq : q.2 = true) :
    (l.set j q).countP (fun pd => pd.2) = l.countP (fun pd => pd.2) + 1 := by
  have := countP_set_eq (fun pd => pd.2) l j q pdDefault hj
  have hdone2 : ((fun (pd : Process × Bool) => pd.2) (l.getD j pdDefault)) = false := hdone
  have hq2 : ((fun (pd : Process × Bool) => pd.2) q) = true := hq
  rw [hdone2, hq2] at this
  simpa using this

/-- The non-preemptive SJF loop terminates: `2k + 1` fuel suffices when at
most `k` processes are incomplete (each pass either completes a process or
is an idle jump immediately followed by a completion). -/
theorem sjfNPLoop_term : ∀ (k : Nat) (t : Int) (l : List (Process × Bool)),
    l.length ≤ l.countP (fun pd => pd.2) + k →
    (sjfNPLoop (2 * k + 1) t l).isSome := by
  intro k
  induction k with
  | zero =>
    intro t l hk
    have hc : l.countP (fun pd => pd.2) = l.length :=
      le_antisymm (List.countP_le_length _) (by omega)
    rw [show 2 * 0 + 1 = 0 + 1 by rfl, sjfNPLoop_done 0 t l hc]
    rfl
  | succ k ih =>
    intro t l hk
    by_cases hc : l.countP (fun pd => pd.2) = l.length
    · rw [show 2 * (k + 1) + 1 = (2 * k + 2) + 1 by omega,
        sjfNPLoop_done (2 * k + 2) t l hc]
      rfl
    · cases hf : findShortestJob t l with
      | some jb =>
        cases jb with
        | mk j b =>
          obtain ⟨hj, ⟨hjd, _⟩, _, _, _⟩ := findShortestJob_some t l j b hf
          rw [show 2 * (k + 1) + 1 = (2 * k + 1) + 1 + 1 by omega,
            sjfNPLoop_select ((2 * k + 1) + 1) t l j b hc hf]
          have hcnt := countP_finish l j (npFinish t (l.getD j pdDefault).1, true) hj hjd rfl
          have hrec := ih (t + (l.getD j pdDefault).1.burst_time)
            (l.set j (npFinish t (l.getD j pdDefault).1, true))
            (by rw [List.length_set, hcnt]; omega)
          obtain ⟨out, hout⟩ := Option.isSome_iff_exists.1 hrec
          rw [sjfNPLoop_mono _ _ _ _ hout]
          rfl
      | none =>
        obtain ⟨pd0, hpd0, hpd0f⟩ := exists_incomplete l hc
        cases hm : minArrivalIncomplete l with
        | none =>
          exact absurd ((minArrivalIncomplete_eq_none l).1 hm pd0 hpd0) (by simp [hpd0f])
        | some t2 =>
          rw [show 2 * (k + 1) + 1 = (2 * k + 1 + 1) + 1 by omega,
            sjfNPLoop_idle (2 * k + 1 + 1) t t2 l hc hf hm]
          obtain ⟨⟨pd1, hpd1, hpd1f, hpd1a⟩, _⟩ := minArrivalIncomplete_some_spec l t2 hm
          have helig : elig t2 pd1 := ⟨hpd1f, le_of_eq hpd1a⟩
          have hsome := findMinBy_isSome (fun p => p.burst_time) t2 l pd1 hpd1 helig
          obtain ⟨jb2, hjb2⟩ := Option.isSome_iff_exists.1 hsome
          cases jb2 with
          | mk j2 b2 =>
            have hf2 : findShortestJob t2 l = some (j2, b2) := hjb2
            obtain ⟨hj2, ⟨hj2d, _⟩, _, _, _⟩ := findShortestJob_some t2 l j2 b2 hf2
            rw [sjfNPLoop_select (2 * k + 1) t2 l j2 b2 hc hf2]
            have hcnt := countP_finish l j2 (npFinish t2 (l.getD j2 pdDefault).1, true) hj2 hj2d rfl
            exact ih (t2 + (l.getD j2 pdDefault).1.burst_time)
              (l.set j2 (npFinish t2 (l.getD j2 pdDefault).1, true))
              (by rw [List.length_set, hcnt]; omega)

/-- Setting an index to an element with unchanged statics preserves the
statics image of the list. -/
theorem map_statics_set (l : List (Process × Bool)) (j : Nat) (q : Process × Bool)
    (hj : j < l.length) (hstat : statics q.1 = statics (l.getD j pdDefault).1) :
    (l.set j q).map (fun pd => statics pd.1) = l.map (fun pd => statics pd.1) := by
  rw [List.map_set, hstat]
  have : statics (l.getD j pdDefault).1
      = (l.map (fun pd => statics pd.1)).getD j (statics pdDefault.1) := by
    rw [List.getD_eq_getElem?_getD, List.getD_eq_getElem?_getD, List.getElem?_map]
    cases hx : l[j]? with
    | none => rfl
    | some pd => rfl
  rw [this, set_same _ j _ (by simpa using hj)]

/-- What the non-preemptive SJF loop guarantees about its output, given the
invariant on entry: the array keeps its length and static fields, and every
returned process carries a completed record with a consistent response
time. -/
theorem sjfNPLoop_out : ∀ (fuel : Nat) (t : Int) (l : List (Process × Bool))
    (out : List Process), sjfNPLoop fuel t l = some out → NPInv l →
    out.length = l.length ∧
    out.map statics = l.map (fun pd => statics pd.1) ∧
    ∀ p ∈ out, p.remaining_time = 0 ∧ p.arrival_time ≤ p.completion_time ∧
      p.response_time = p.completion_time - p.arrival_time - p.burst_time := by
  intro fuel
  induction fuel with
  | zero => intro t l out h; exact Option.noConfusion h
  | succ f ih =>
    intro t l out h hinv
    by_cases hc : l.countP (fun pd => pd.2) = l.length
    · rw [sjfNPLoop_done f t l hc] at h
      have hall : ∀ pd ∈ l, pd.2 = true := List.countP_eq_length.1 hc
      obtain rfl : (l.map Prod.fst) = out := Option.some.injEq .. ▸ h
      refine ⟨by simp, by simp, ?_⟩
      intro p hp
      obtain ⟨pd, hpd, rfl⟩ := List.mem_map.1 hp
      exact (hinv pd hpd).2 (hall pd hpd)
    · cases hf : findShortestJob t l with
      | some jb =>
        cases jb with
        | mk j b =>
          rw [sjfNPLoop_select f t l j b hc hf] at h
          obtain ⟨hj, _, _, _, _⟩ := findShortestJob_some t l j b hf
          obtain ⟨ihl, ihs, ihq⟩ := ih _ _ _ h (NPInv_step t l j b hf hinv)
          refine ⟨by rw [ihl, List.length_set], ?_, ihq⟩
          rw [ihs, map_statics_set l j (npFinish t (l.getD j pdDefault).1, true) hj
            (npFinish_statics t (l.getD j pdDefault).1)]
      | none =>
        cases hm : minArrivalIncomplete l with
        | some t2 =>
          rw [sjfNPLoop_idle f t t2 l hc hf hm] at h
          exact ih _ _ _ h hinv
        | none =>
          rw [sjfNPLoop, if_neg hc, hf, hm] at h
          exact Option.noConfusion h

/-! ### SRTF loop: invariant, termination -/

/-- One unit of execution in the preemptive SJF loop (sjf.c lines 150-160):
set the response time at first dispatch, then decrement the remaining
time. -/
def srtfExec (t : Int) (p : Process) : Process :=
  let p1 := if p.started then p
            else { p with response_time := t - p.arrival_time, started := true }
  { p1 with remaining_time := p1.remaining_time - 1 }

theorem srtfExec_remaining (t : Int) (p : Process) :
    (srtfExec t p).remaining_time = p.remaining_time - 1 := by
  by_cases h : p.started <;> simp [srtfExec, h]

theorem srtfExec_arrival (t : Int) (p : Process) :
    (srtfExec t p).arrival_time = p.arrival_time := by
  by_cases h : p.started <;> simp [srtfExec, h]

theorem srtfExec_statics (t : Int) (p : Process) : statics (srtfExec t p) = statics p := by
  by_cases h : p.started <;> simp [srtfExec, statics, h]

/-- Invariant carried through the preemptive SJF loop: incomplete processes
have positive remaining time, completed ones have a zeroed remaining time
and a completion not before their arrival. -/
def SRInv (l : List (Process × Bool)) : Prop :=
  ∀ pd ∈ l, (pd.2 = false → 1 ≤ pd.1.remaining_time) ∧
    (pd.2 = true → pd.1.remaining_time = 0 ∧ pd.1.arrival_time ≤ pd.1.completion_time)

/-- Step equation: loop exit when every process is completed. -/
theorem srtfLoop_done (fuel : Nat) (t : Int) (l : List (Process × Bool))
    (hc : l.countP (fun pd => pd.2) = l.length) :
    srtfLoop (fuel + 1) t l = some (l.map Prod.fst) := by
  rw [srtfLoop, if_pos hc]

/-- Step equation: the selected process executes one unit and completes. -/
theorem srtfLoop_fin (fuel : Nat) (t : Int) (l : List (Process × Bool))
    (j : Nat) (b : Int)
    (hc : ¬ l.countP (fun pd => pd.2) = l.length)
    (hf : findShortestRemaining t l = some (j, b))
    (hz : (srtfExec t (l.getD j pdDefault).1).remaining_time = 0) :
    srtfLoop (fuel + 1) t l
      = srtfLoop fuel (t + 1)
          (l.set j ({ srtfExec t (l.getD j pdDefault).1 with completion_time := t + 1 },
            true)) := by
  rw [srtfLoop, if_neg hc, hf]
  show (if (srtfExec t (l.getD j pdDefault).1).remaining_time = 0
        then srtfLoop fuel (t + 1)
          (l.set j ({ srtfExec t (l.getD j pdDefault).1 with completion_time := t + 1 }, true))
        else srtfLoop fuel (t + 1) (l.set j (srtfExec t (l.getD j pdDefault).1, false))) = _
  rw [if_pos hz]

/-- Step equation: the selected process executes one unit and continues. -/
theorem srtfLoop_cont (fuel : Nat) (t : Int) (l : List (Process × Bool))
    (j : Nat) (b : Int)
    (hc : ¬ l.countP (fun pd => pd.2) = l.length)
    (hf : findShortestRemaining t l = some (j, b))
    (hnz : ¬ (srtfExec t (l.getD j pdDefault).1).remaining_time = 0) :
    srtfLoop (fuel + 1) t l
      = srtfLoop fuel (t + 1) (l.set j (srtfExec t (l.getD j pdDefault).1, false)) := by
  rw [srtfLoop, if_neg hc, hf]
  show (if (srtfExec t (l.getD j pdDefault).1).remaining_time = 0
        then srtfLoop fuel (t + 1)
          (l.set j ({ srtfExec t (l.getD j pdDefault).1 with completion_time := t + 1 }, true))
        else srtfLoop fuel (t + 1) (l.set j (srtfExec t (l.getD j pdDefault).1, false))) = _
  rw [if_neg hnz]

/-- Step equation: no eligible process, idle-jump to the next arrival. -/
theorem srtfLoop_idle (fuel : Nat) (t t2 : Int) (l : List (Process × Bool))
    (hc : ¬ l.countP (fun pd => pd.2) = l.length)
    (hf : findShortestRemaining t l = none)
    (hm : minArrivalIncomplete l = some t2) :
    srtfLoop (fuel + 1) t l = srtfLoop fuel t2 l := by
  rw [srtfLoop, if_neg hc, hf, hm]

/-- Fuel monotonicity for the preemptive SJF loop. -/
theorem srtfLoop_mono : ∀ (fuel : Nat) (t : Int) (l : List (Process × Bool))
    (out : List Process), srtfLoop fuel t l = some out →
    srtfLoop (fuel + 1) t l = some out := by
  intro fuel
  induction fuel with
  | zero => intro t l out h; exact Option.noConfusion h
  | succ f ih =>
    intro t l out h
    by_cases hc : l.countP (fun pd => pd.2) = l.length
    · rw [srtfLoop_done f t l hc] at h
      rw [srtfLoop_done (f + 1) t l hc]
      exact h
    · cases hf : findShortestRemaining t l with
      | some jb =>
        cases jb with
        | mk j b =>
          by_cases hz : (srtfExec t (l.getD j pdDefault).1).remaining_time = 0
          · rw [srtfLoop_fin f t l j b hc hf hz] at h
            rw [srtfLoop_fin (f + 1) t l j b hc hf hz]
            exact ih _ _ _ h
          · rw [srtfLoop_cont f t l j b hc hf hz] at h
            rw [srtfLoop_cont (f + 1) t l j b hc hf hz]
            exact ih _ _ _ h
      | none =>
        cases hm : minArrivalIncomplete l with
        | some t2 =>
          rw [srtfLoop_idle f t t2 l hc hf hm] at h
          rw [srtfLoop_idle (f + 1) t t2 l hc hf hm]
          exact ih _ _ _ h
        | none =>
          rw [srtfLoop, if_neg hc, hf, hm] at h
          exact Option.noConfusion h

/-- The completion step preserves the SRTF invariant. -/
theorem SRInv_fin (t : Int) (l : List (Process × Bool)) (j : Nat) (b : Int)
    (hf : findShortestRemaining t l = some (j, b)) (hinv : SRInv l)
    (hz : (srtfExec t (l.getD j pdDefault).1).remaining_time = 0) :
    SRInv (l.set j ({ srtfExec t (l.getD j pdDefault).1 with completion_time := t + 1 },
      true)) := by
  obtain ⟨hj, ⟨hjd, harr⟩, _, _⟩ := findShortestRemaining_some t l j b hf
  intro pd hpd
  rcases List.mem_or_eq_of_mem_set hpd with hmem | rfl
  · exact hinv pd hmem
  · constructor
    · intro habs
      exact absurd habs (by simp)
    · intro _
      constructor
      · exact hz
      · show (srtfExec t (l.getD j pdDefault).1).arrival_time ≤ t + 1
        rw [srtfExec_arrival]
        omega

/-- The continuation step preserves the SRTF invariant. -/
theorem SRInv_cont (t : Int) (l : List (Process × Bool)) (j : Nat) (b : Int)
    (hf : findShortestRemaining t l = some (j, b)) (hinv : SRInv l)
    (hnz : ¬ (srtfExec t (l.getD j pdDefault).1).remaining_time = 0) :
    SRInv (l.set j (srtfExec t (l.getD j pdDefault).1, false)) := by
  obtain ⟨hj, ⟨hjd, harr⟩, _, _⟩ := findShortestRemaining_some t l j b hf
  have hrem : 1 ≤ (l.getD j pdDefault).1.remaining_time :=
    (hinv _ (getD_mem l j pdDefault hj)).1 hjd
  intro pd hpd
  rcases List.mem_or_eq_of_mem_set hpd with hmem | rfl
  · exact hinv pd hmem
  · constructor
    · intro _
      show 1 ≤ (srtfExec t (l.getD j pdDefault).1).remaining_time
      rw [srtfExec_remaining]
      rw [srtfExec_remaining] at hnz
      omega
    · intro habs
      exact absurd habs (by simp)

/-- Total outstanding work of an SJF state. -/
def Wsum (l : List (Process × Bool)) : Nat :=
  (l.map (fun pd => pd.1.remaining_time.toNat)).sum

theorem Wsum_set (l : List (Process × Bool)) (j : Nat) (q : Process × Bool)
    (hj : j < l.length) :
    Wsum (l.set j q) + (l.getD j pdDefault).1.remaining_time.toNat
      = Wsum l + q.1.remaining_time.toNat := by
  exact mapsum_set (fun pd => pd.1.remaining_time.toNat) l j q pdDefault hj

theorem Wsum_pos_of_incomplete (l : List (Process × Bool)) (hinv : SRInv l)
    (pd : Process × Bool) (hm : pd ∈ l) (hd : pd.2 = false) : 1 ≤ Wsum l := by
  have h1 : 1 ≤ pd.1.remaining_time := (hinv pd hm).1 hd
  have h2 : pd.1.remaining_time.toNat ∈ l.map (fun pd => pd.1.remaining_time.toNat) :=
    List.mem_map.2 ⟨pd, hm, rfl⟩
  have := mem_nat_le_sum _ _ h2
  have h3 : 1 ≤ pd.1.remaining_time.toNat := by omega
  rw [Wsum]
  omega

/-- A unit execution step lowers the outstanding work by exactly one. -/
theorem Wsum_exec (t : Int) (l : List (Process × Bool)) (j : Nat) (q : Process × Bool)
    (hj : j < l.length) (hrem : 1 ≤ (l.getD j pdDefault).1.remaining_time)
    (hq : q.1.remaining_time = (l.getD j pdDefault).1.remaining_time - 1) :
    Wsum (l.set j q) + 1 = Wsum l := by
  have h := Wsum_set l j q hj
  rw [hq] at h
  omega

/-- The preemptive SJF loop terminates: `2W + 1` fuel suffices when the
outstanding work is at most `W` (every pass is a unit of work or an idle
jump immediately followed by one). -/
theorem srtfLoop_term : ∀ (W : Nat) (t : Int) (l : List (Process × Bool)),
    SRInv l → Wsum l ≤ W → (srtfLoop (2 * W + 1) t l).isSome := by
  intro W
  induction W with
  | zero =>
    intro t l hinv hw
    by_cases hc : l.countP (fun pd => pd.2) = l.length
    · rw [show 2 * 0 + 1 = 0 + 1 by rfl, srtfLoop_done 0 t l hc]
      rfl
    · obtain ⟨pd, hpd, hpdf⟩ := exists_incomplete l hc
      have := Wsum_pos_of_incomplete l hinv pd hpd hpdf
      omega
  | succ W ih =>
    intro t l hinv hw
    by_cases hc : l.countP (fun pd => pd.2) = l.length
    · rw [show 2 * (W + 1) + 1 = (2 * W + 2) + 1 by omega, srtfLoop_done (2 * W + 2) t l hc]
      rfl
    · cases hf : findShortestRemaining t l with
      | some jb =>
        cases jb with
        | mk j b =>
          obtain ⟨hj, ⟨hjd, _⟩, _, _⟩ := findShortestRemaining_some t l j b hf
          have hrem : 1 ≤ (l.getD j pdDefault).1.remaining_time :=
            (hinv _ (getD_mem l j pdDefault hj)).1 hjd
          rw [show 2 * (W + 1) + 1 = (2 * W + 1) + 1 + 1 by omega]
          by_cases hz : (srtfExec t (l.getD j pdDefault).1).remaining_time = 0
          · rw [srtfLoop_fin ((2 * W + 1) + 1) t l j b hc hf hz]
            have hdec := Wsum_exec t l j
              ({ srtfExec t (l.getD j pdDefault).1 with completion_time := t + 1 }, true)
              hj hrem (srtfExec_remaining t _)
            have hrec := ih (t + 1) _ (SRInv_fin t l j b hf hinv hz) (by omega)
            obtain ⟨out, hout⟩ := Option.isSome_iff_exists.1 hrec
            rw [srtfLoop_mono _ _ _ _ hout]
            rfl
          · rw [srtfLoop_cont ((2 * W + 1) + 1) t l j b hc hf hz]
            have hdec := Wsum_exec t l j (srtfExec t (l.getD j pdDefault).1, false)
              hj hrem (srtfExec_remaining t _)
            have hrec := ih (t + 1) _ (SRInv_cont t l j b hf hinv hz) (by omega)
            obtain ⟨out, hout⟩ := Option.isSome_iff_exists.1 hrec
            rw [srtfLoop_mono _ _ _ _ hout]
            rfl
      | none =>
        obtain ⟨pd0, hpd0, hpd0f⟩ := exists_incomplete l hc
        cases hm : minArrivalIncomplete l with
        | none =>
          exact absurd ((minArrivalIncomplete_eq_none l).1 hm pd0 hpd0) (by simp [hpd0f])
        | some t2 =>
          rw [show 2 * (W + 1) + 1 = (2 * W + 1 + 1) + 1 by omega,
            srtfLoop_idle (2 * W + 1 + 1) t t2 l hc hf hm]
          obtain ⟨⟨pd1, hpd1, hpd1f, hpd1a⟩, _⟩ := minArrivalIncomplete_some_spec l t2 hm
          have helig : elig t2 pd1 := ⟨hpd1f, le_of_eq hpd1a⟩
          have hsome := findMinBy_isSome (fun p => p.remaining_time) t2 l pd1 hpd1 helig
          obtain ⟨jb2, hjb2⟩ := Option.isSome_iff_exists.1 hsome
          cases jb2 with
          | mk j2 b2 =>
            have hf2 : findShortestRemaining t2 l = some (j2, b2) := hjb2
            obtain ⟨hj2, ⟨hj2d, _⟩, _, _⟩ := findShortestRemaining_some t2 l j2 b2 hf2
            have hrem2 : 1 ≤ (l.getD j2 pdDefault).1.remaining_time :=
              (hinv _ (getD_mem l j2 pdDefault hj2)).1 hj2d
            by_cases hz : (srtfExec t2 (l.getD j2 pdDefault).1).remaining_time = 0
            · rw [srtfLoop_fin (2 * W + 1) t2 l j2 b2 hc hf2 hz]
              have hdec := Wsum_exec t2 l j2
                ({ srtfExec t2 (l.getD j2 pdDefault).1 with completion_time := t2 + 1 }, true)
                hj2 hrem2 (srtfExec_remaining t2 _)
              exact ih (t2 + 1) _ (SRInv_fin t2 l j2 b2 hf2 hinv hz) (by omega)
            · rw [srtfLoop_cont (2 * W + 1) t2 l j2 b2 hc hf2 hz]
              have hdec := Wsum_exec t2 l j2 (srtfExec t2 (l.getD j2 pdDefault).1, false)
                hj2 hrem2 (srtfExec_remaining t2 _)
              exact ih (t2 + 1) _ (SRInv_cont t2 l j2 b2 hf2 hinv hz) (by omega)

/-- What the preemptive SJF loop guarantees about its output. -/
theorem srtfLoop_out : ∀ (fuel : Nat) (t : Int) (l : List (Process × Bool))
    (out : List Process), srtfLoop fuel t l = some out → SRInv l →
    out.length = l.length ∧
    out.map statics = l.map (fun pd => statics pd.1) ∧
    ∀ p ∈ out, p.remaining_time = 0 ∧ p.arrival_time ≤ p.completion_time := by
  intro fuel
  induction fuel with
  | zero => intro t l out h; exact Option.noConfusion h
  | succ f ih =>
    intro t l out h hinv
    by_cases hc : l.countP (fun pd => pd.2) = l.length
    · rw [srtfLoop_done f t l hc] at h
      have hall : ∀ pd ∈ l, pd.2 = true := List.countP_eq_length.1 hc
      obtain rfl : (l.map Prod.fst) = out := Option.some.injEq .. ▸ h
      refine ⟨by simp, by simp, ?_⟩
      intro p hp
      obtain ⟨pd, hpd, rfl⟩ := List.mem_map.1 hp
      exact (hinv pd hpd).2 (hall pd hpd)
    · cases hf : findShortestRemaining t l with
      | some jb =>
        cases jb with
        | mk j b =>
          obtain ⟨hj, _, _, _⟩ := findShortestRemaining_some t l j b hf
          by_cases hz : (srtfExec t (l.getD j pdDefault).1).remaining_time = 0
          · rw [srtfLoop_fin f t l j b hc hf hz] at h
            obtain ⟨ihl, ihs, ihq⟩ := ih _ _ _ h (SRInv_fin t l j b hf hinv hz)
            refine ⟨by rw [ihl, List.length_set], ?_, ihq⟩
            rw [ihs]
            exact map_statics_set l j
              ({ srtfExec t (l.getD j pdDefault).1 with completion_time := t + 1 }, true) hj
              (by
                show statics { srtfExec t (l.getD j pdDefault).1 with completion_time := t + 1 }
                  = statics (l.getD j pdDefault).1
                rw [show statics { srtfExec t (l.getD j pdDefault).1 with completion_time := t + 1 }
                    = statics (srtfExec t (l.getD j pdDefault).1) from rfl]
                exact srtfExec_statics t _)
          · rw [srtfLoop_cont f t l j b hc hf hz] at h
            obtain ⟨ihl, ihs, ihq⟩ := ih _ _ _ h (SRInv_cont t l j b hf hinv hz)
            refine ⟨by rw [ihl, List.length_set], ?_, ihq⟩
            rw [ihs]
            exact map_statics_set l j (srtfExec t (l.getD j pdDefault).1, false) hj
              (srtfExec_statics t _)
      | none =>
        cases hm : minArrivalIncomplete l with
        | some t2 =>
          rw [srtfLoop_idle f t t2 l hc hf hm] at h
          exact ih _ _ _ h hinv
        | none =>
          rw [srtfLoop, if_neg hc, hf, hm] at h
          exact Option.noConfusion h

/-! ### Round Robin: arrival-scan characterisation and step equations -/

theorem rrTouch_remaining (t : Int) (p : Process) :
    (rrTouch t p).remaining_time = p.remaining_time := by
  by_cases h : p.started <;> simp [rrTouch, h]

theorem rrTouch_arrival (t : Int) (p : Process) :
    (rrTouch t p).arrival_time = p.arrival_time := by
  by_cases h : p.started <;> simp [rrTouch, h]

theorem rrTouch_statics (t : Int) (p : Process) : statics (rrTouch t p) = statics p := by
  by_cases h : p.started <;> simp [rrTouch, statics, h]

theorem rrExecTime_touch (tq t : Int) (p : Process) :
    rrExecTime tq (rrTouch t p)
      = (if p.remaining_time < tq then p.remaining_time else tq) := by
  rw [rrExecTime, rrTouch_remaining]

theorem rrExecP_remaining (tq t : Int) (p : Process) :
    (rrExecP tq t p).remaining_time
      = p.remaining_time - (if p.remaining_time < tq then p.remaining_time else tq) := by
  show (rrTouch t p).remaining_time - rrExecTime tq (rrTouch t p) = _
  rw [rrTouch_remaining, rrExecTime_touch]

theorem rrExecP_arrival (tq t : Int) (p : Process) :
    (rrExecP tq t p).arrival_time = p.arrival_time := by
  show (rrTouch t p).arrival_time = _
  rw [rrTouch_arrival]

theorem rrExecP_statics (tq t : Int) (p : Process) :
    statics (rrExecP tq t p) = statics p := by
  show statics (rrTouch t p) = _
  rw [rrTouch_statics]

/-- The slice length is positive and bounded by the remaining time when the
quantum is positive and work remains. -/
theorem rrExecTime_bounds (tq t : Int) (p : Process) (htq : 1 ≤ tq)
    (hrem : 1 ≤ p.remaining_time) :
    1 ≤ rrExecTime tq (rrTouch t p) ∧
    rrExecTime tq (rrTouch t p) ≤ p.remaining_time := by
  rw [rrExecTime_touch]
  split <;> omega

/-- Full characterisation of the arrival scan (auxiliary form): it appends
the contiguous run of already-arrived indices starting at `next` and stops
at the first index not yet arrived (or the end of the array). -/
theorem enqAux_spec (procs : List Process) (tnow : Int) :
    ∀ (d : Nat) (q : List Nat) (next : Nat), procs.length - next = d →
    next ≤ procs.length →
    next ≤ (enqAux procs tnow d q next).2 ∧
    (enqAux procs tnow d q next).2 ≤ procs.length ∧
    (enqAux procs tnow d q next).1
      = q ++ List.range' next ((enqAux procs tnow d q next).2 - next) ∧
    (∀ i, next ≤ i → i < (enqAux procs tnow d q next).2 →
      (procs.getD i defaultProcess).arrival_time ≤ tnow) ∧
    ((enqAux procs tnow d q next).2 < procs.length →
      tnow < (procs.getD (enqAux procs tnow d q next).2 defaultProcess).arrival_time) := by
  intro d
  induction d with
  | zero =>
    intro q next hd hle
    rw [show enqAux procs tnow 0 q next = (q, next) from rfl]
    refine ⟨le_refl _, by omega, by simp, ?_, ?_⟩
    · intro i h1 h2; omega
    · intro h; omega
  | succ d ih =>
    intro q next hd hle
    have hlt : next < procs.length := by omega
    by_cases harr : (procs.getD next defaultProcess).arrival_time ≤ tnow
    · rw [show enqAux procs tnow (d + 1) q next
          = enqAux procs tnow d (q ++ [next]) (next + 1) by
            rw [enqAux, if_pos hlt, if_pos harr]]
      obtain ⟨ih1, ih2, ih3, ih4, ih5⟩ := ih (q ++ [next]) (next + 1) (by omega) (by omega)
      refine ⟨by omega, ih2, ?_, ?_, ih5⟩
      · rw [ih3, List.append_assoc]
        congr 1
        have hk : (enqAux procs tnow d (q ++ [next]) (next + 1)).2 - next
            = ((enqAux procs tnow d (q ++ [next]) (next + 1)).2 - (next + 1)) + 1 := by
          omega
        rw [hk]
        rw [List.range'_succ]
        rfl
      · intro i h1 h2
        rcases Nat.eq_or_lt_of_le h1 with rfl | h3
        · exact harr
        · exact ih4 i h3 h2
    · rw [show enqAux procs tnow (d + 1) q next = (q, next) by
            rw [enqAux, if_pos hlt, if_neg harr]]
      refine ⟨le_refl _, by omega, by simp, ?_, ?_⟩
      · intro i h1 h2; omega
      · intro _
        have hgoal : tnow < (procs.getD next defaultProcess).arrival_time := by omega
        exact hgoal

/-- Full characterisation of the arrival scan `enqueueArrivals`. -/
theorem enqueueArrivals_spec (procs : List Process) (tnow : Int) :
    ∀ (d : Nat) (q : List Nat) (next : Nat), procs.length - next ≤ d →
    next ≤ procs.length →
    next ≤ (enqueueArrivals procs tnow q next).2 ∧
    (enqueueArrivals procs tnow q next).2 ≤ procs.length ∧
    (enqueueArrivals procs tnow q next).1
      = q ++ List.range' next ((enqueueArrivals procs tnow q next).2 - next) ∧
    (∀ i, next ≤ i → i < (enqueueArrivals procs tnow q next).2 →
      (procs.getD i defaultProcess).arrival_time ≤ tnow) ∧
    ((enqueueArrivals procs tnow q next).2 < procs.length →
      tnow < (procs.getD (enqueueArrivals procs tnow q next).2 defaultProcess).arrival_time) := by
  intro _ q next _ hle
  exact enqAux_spec procs tnow (procs.length - next) q next rfl hle

/-- Step equation: normal loop exit. -/
theorem rrStep_halt_eq (tq : Int) (s : RRState) (hdone : s.completed = s.procs.length) :
    rrStep tq s = .halt s.procs := by
  rw [rrStep, if_pos hdone]

/-- Step equation: empty ready queue, idle-jump to the next arrival. -/
theorem rrStep_jump_eq (tq : Int) (s : RRState) (n1 : Nat)
    (hdone : ¬ s.completed = s.procs.length)
    (henq : enqueueArrivals s.procs s.t s.queue s.nextIdx = ([], n1))
    (hn : n1 < s.procs.length) :
    rrStep tq s = .step { s with t := (s.procs.getD n1 defaultProcess).arrival_time,
                                 queue := [], nextIdx := n1 } := by
  rw [rrStep, if_neg hdone, henq]
  show (if n1 < s.procs.length
        then RRRes.step { s with t := (s.procs.getD n1 defaultProcess).arrival_time,
                                 queue := [], nextIdx := n1 }
        else RRRes.halt s.procs) = _
  rw [if_pos hn]

/-- Step equation: the `break` of rr.c line 180 (queue empty, no arrivals
left, yet `completed < n`). -/
theorem rrStep_break_eq (tq : Int) (s : RRState) (n1 : Nat)
    (hdone : ¬ s.completed = s.procs.length)
    (henq : enqueueArrivals s.procs s.t s.queue s.nextIdx = ([], n1))
    (hn : ¬ n1 < s.procs.length) :
    rrStep tq s = .halt s.procs := by
  rw [rrStep, if_neg hdone, henq]
  show (if n1 < s.procs.length
        then RRRes.step { s with t := (s.procs.getD n1 defaultProcess).arrival_time,
                                 queue := [], nextIdx := n1 }
        else RRRes.halt s.procs) = _
  rw [if_neg hn]

/-- Step equation: the dequeued process finishes within its slice. -/
theorem rrStep_complete_eq (tq : Int) (s : RRState) (j : Nat) (qrest : List Nat) (n1 : Nat)
    (hdone : ¬ s.completed = s.procs.length)
    (henq : enqueueArrivals s.procs s.t s.queue s.nextIdx = (j :: qrest, n1))
    (hz : (rrExecP tq s.t (s.procs.getD j defaultProcess)).remaining_time = 0) :
    rrStep tq s = .step
      { t := s.t + rrExecTime tq (rrTouch s.t (s.procs.getD j defaultProcess)),
        procs := (s.procs.set j (rrExecP tq s.t (s.procs.getD j defaultProcess))).set j
          { rrExecP tq s.t (s.procs.getD j defaultProcess) with
            completion_time := s.t + rrExecTime tq (rrTouch s.t (s.procs.getD j defaultProcess)) },
        queue := (enqueueArrivals (s.procs.set j (rrExecP tq s.t (s.procs.getD j defaultProcess)))
          (s.t + rrExecTime tq (rrTouch s.t (s.procs.getD j defaultProcess))) qrest n1).1,
        nextIdx := (enqueueArrivals (s.procs.set j (rrExecP tq s.t (s.procs.getD j defaultProcess)))
          (s.t + rrExecTime tq (rrTouch s.t (s.procs.getD j defaultProcess))) qrest n1).2,
        completed := s.completed + 1 } := by
  rw [rrStep, if_neg hdone, henq]
  show (if (rrExecP tq s.t (s.procs.getD j defaultProcess)).remaining_time = 0
        then RRRes.step
          { t := s.t + rrExecTime tq (rrTouch s.t (s.procs.getD j defaultProcess)),
            procs := (s.procs.set j (rrExecP tq s.t (s.procs.getD j defaultProcess))).set j
              { rrExecP tq s.t (s.procs.getD j defaultProcess) with
                completion_time := s.t + rrExecTime tq (rrTouch s.t (s.procs.getD j defaultProcess)) },
            queue := (enqueueArrivals (s.procs.set j (rrExecP tq s.t (s.procs.getD j defaultProcess)))
              (s.t + rrExecTime tq (rrTouch s.t (s.procs.getD j defaultProcess))) qrest n1).1,
            nextIdx := (enqueueArrivals (s.procs.set j (rrExecP tq s.t (s.procs.getD j defaultProcess)))
              (s.t + rrExecTime tq (rrTouch s.t (s.procs.getD j defaultProcess))) qrest n1).2,
            completed := s.completed + 1 }
        else RRRes.step
          { t := s.t + rrExecTime tq (rrTouch s.t (s.procs.getD j defaultProcess)),
            procs := s.procs.set j (rrExecP tq s.t (s.procs.getD j defaultProcess)),
            queue := (enqueueArrivals (s.procs.set j (rrExecP tq s.t (s.procs.getD j defaultProcess)))
              (s.t + rrExecTime tq (rrTouch s.t (s.procs.getD j defaultProcess))) qrest n1).1 ++ [j],
            nextIdx := (enqueueArrivals (s.procs.set j (rrExecP tq s.t (s.procs.getD j defaultProcess)))
              (s.t + rrExecTime tq (rrTouch s.t (s.procs.getD j defaultProcess))) qrest n1).2,
            completed := s.completed }) = _
  rw [if_pos hz]

/-- Step equation: the dequeued process is preempted at the end of its
slice and re-enqueued at the tail, after the arrivals of the slice. -/
theorem rrStep_preempt_eq (tq : Int) (s : RRState) (j : Nat) (qrest : List Nat) (n1 : Nat)
    (hdone : ¬ s.completed = s.procs.length)
    (henq : enqueueArrivals s.procs s.t s.queue s.nextIdx = (j :: qrest, n1))
    (hnz : ¬ (rrExecP tq s.t (s.procs.getD j defaultProcess)).remaining_time = 0) :
    rrStep tq s = .step
      { t := s.t + rrExecTime tq (rrTouch s.t (s.procs.getD j defaultProcess)),
        procs := s.procs.set j (rrExecP tq s.t (s.procs.getD j defaultProcess)),
        queue := (enqueueArrivals (s.procs.set j (rrExecP tq s.t (s.procs.getD j defaultProcess)))
          (s.t + rrExecTime tq (rrTouch s.t (s.procs.getD j defaultProcess))) qrest n1).1 ++ [j],
        nextIdx := (enqueueArrivals (s.procs.set j (rrExecP tq s.t (s.procs.getD j defaultProcess)))
          (s.t + rrExecTime tq (rrTouch s.t (s.procs.getD j defaultProcess))) qrest n1).2,
        completed := s.completed } := by
  rw [rrStep, if_neg hdone, henq]
  show (if (rrExecP tq s.t (s.procs.getD j defaultProcess)).remaining_time = 0
        then RRRes.step
          { t := s.t + rrExecTime tq (rrTouch s.t (s.procs.getD j defaultProcess)),
            procs := (s.procs.set j (rrExecP tq s.t (s.procs.getD j defaultProcess))).set j
              { rrExecP tq s.t (s.procs.getD j defaultProcess) with
                completion_time := s.t + rrExecTime tq (rrTouch s.t (s.procs.getD j defaultProcess)) },
            queue := (enqueueArrivals (s.procs.set j (rrExecP tq s.t (s.procs.getD j defaultProcess)))
              (s.t + rrExecTime tq (rrTouch s.t (s.procs.getD j defaultProcess))) qrest n1).1,
            nextIdx := (enqueueArrivals (s.procs.set j (rrExecP tq s.t (s.procs.getD j defaultProcess)))
              (s.t + rrExecTime tq (rrTouch s.t (s.procs.getD j defaultProcess))) qrest n1).2,
            completed := s.completed + 1 }
        else RRRes.step
          { t := s.t + rrExecTime tq (rrTouch s.t (s.procs.getD j defaultProcess)),
            procs := s.procs.set j (rrExecP tq s.t (s.procs.getD j defaultProcess)),
            queue := (enqueueArrivals (s.procs.set j (rrExecP tq s.t (s.procs.getD j defaultProcess)))
              (s.t + rrExecTime tq (rrTouch s.t (s.procs.getD j defaultProcess))) qrest n1).1 ++ [j],
            nextIdx := (enqueueArrivals (s.procs.set j (rrExecP tq s.t (s.procs.getD j defaultProcess)))
              (s.t + rrExecTime tq (rrTouch s.t (s.procs.getD j defaultProcess))) qrest n1).2,
            completed := s.completed }) = _
  rw [if_neg hnz]

/-- Total outstanding work of an RR process array. -/
def WsumP (ps : List Process) : Nat :=
  (ps.map (fun p => p.remaining_time.toNat)).sum

theorem WsumP_set (ps : List Process) (j : Nat) (q : Process) (hj : j < ps.length) :
    WsumP (ps.set j q) + (ps.getD j defaultProcess).remaining_time.toNat
      = WsumP ps + q.remaining_time.toNat :=
  mapsum_set (fun p => p.remaining_time.toNat) ps j q defaultProcess hj

theorem map_statics_setP (l : List Process) (j : Nat) (q : Process)
    (hj : j < l.length) (hstat : statics q = statics (l.getD j defaultProcess)) :
    (l.set j q).map statics = l.map statics := by
  rw [List.map_set, hstat]
  have : statics (l.getD j defaultProcess)
      = (l.map statics).getD j (statics defaultProcess) := by
    rw [List.getD_eq_getElem?_getD, List.getD_eq_getElem?_getD, List.getElem?_map]
    cases hx : l[j]? with
    | none => rfl
    | some pd => rfl
  rw [this, set_same _ j _ (by simpa using hj)]

/-- Loop invariant of `rr_schedule` at the top of each pass: the queue holds
exactly the arrived-but-unfinished indices (without duplicates, all below
the arrival pointer), indices beyond the pointer are untouched, the
completed counter counts the finished processes, every enqueued process has
arrived by the current time, and finished processes carry consistent
completion times. -/
structure RRInv (s : RRState) : Prop where
  next_le : s.nextIdx ≤ s.procs.length
  queue_lt : ∀ j ∈ s.queue, j < s.nextIdx
  queue_rem : ∀ j ∈ s.queue, 1 ≤ (s.procs.getD j defaultProcess).remaining_time
  queue_nd : s.queue.Nodup
  partition : ∀ i, i < s.nextIdx → i ∉ s.queue →
    (s.procs.getD i defaultProcess).remaining_time = 0
  unarrived : ∀ i, s.nextIdx ≤ i → i < s.procs.length →
    1 ≤ (s.procs.getD i defaultProcess).remaining_time
  completed_eq : s.completed = s.procs.countP (fun p => decide (p.remaining_time = 0))
  arrived_le : ∀ i, i < s.nextIdx → (s.procs.getD i defaultProcess).arrival_time ≤ s.t
  done_ok : ∀ p ∈ s.procs, p.remaining_time = 0 → p.arrival_time ≤ p.completion_time

/-- The top-of-pass arrival scan preserves the invariant (the queue and the
arrival pointer are replaced by the scan results). -/
theorem RRInv_enq (s : RRState) (hi : RRInv s) :
    RRInv { s with queue := (enqueueArrivals s.procs s.t s.queue s.nextIdx).1,
                   nextIdx := (enqueueArrivals s.procs s.t s.queue s.nextIdx).2 } := by
  obtain ⟨e1, e2, e3, e4, e5⟩ :=
    enqueueArrivals_spec s.procs s.t (s.procs.length - s.nextIdx) s.queue s.nextIdx
      (le_refl _) hi.next_le
  constructor
  case next_le => exact e2
  case queue_lt =>
    intro j hj
    rw [e3] at hj
    rcases List.mem_append.1 hj with hold | hnew
    · exact lt_of_lt_of_le (hi.queue_lt j hold) e1
    · obtain ⟨h1, h2⟩ := List.mem_range'_1.1 hnew
      show j < (enqueueArrivals s.procs s.t s.queue s.nextIdx).2
      omega
  case queue_rem =>
    intro j hj
    rw [e3] at hj
    rcases List.mem_append.1 hj with hold | hnew
    · exact hi.queue_rem j hold
    · obtain ⟨h1, h2⟩ := List.mem_range'_1.1 hnew
      exact hi.unarrived j h1 (by omega)
  case queue_nd =>
    show ((enqueueArrivals s.procs s.t s.queue s.nextIdx).1).Nodup
    rw [e3]
    refine List.Nodup.append hi.queue_nd (List.nodup_range' _ _) ?_
    rw [List.disjoint_left]
    intro a ha hb
    obtain ⟨h1, _⟩ := List.mem_range'_1.1 hb
    exact absurd (hi.queue_lt a ha) (by omega)
  case partition =>
    intro i hlt hnm
    have hlt2 : i < (enqueueArrivals s.procs s.t s.queue s.nextIdx).2 := hlt
    rw [e3] at hnm
    by_cases hi0 : i < s.nextIdx
    · exact hi.partition i hi0 (fun hmem => hnm (List.mem_append.2 (Or.inl hmem)))
    · exact absurd (List.mem_append.2 (Or.inr (List.mem_range'_1.2 ⟨by omega, by omega⟩))) hnm
  case unarrived =>
    intro i h1 h2
    exact hi.unarrived i (le_trans e1 h1) h2
  case completed_eq => exact hi.completed_eq
  case arrived_le =>
    intro i hlt
    by_cases hi0 : i < s.nextIdx
    · exact hi.arrived_le i hi0
    · exact e4 i (by omega) hlt
  case done_ok => exact hi.done_ok

theorem countPz_set (ps : List Process) (j : Nat) (q : Process) (hj : j < ps.length) :
    (ps.set j q).countP (fun p => decide (p.remaining_time = 0))
      + (if (ps.getD j defaultProcess).remaining_time = 0 then 1 else 0)
      = ps.countP (fun p => decide (p.remaining_time = 0))
      + (if q.remaining_time = 0 then 1 else 0) := by
  have := countP_set_eq (fun p => decide (p.remaining_time = 0)) ps j q defaultProcess hj
  simpa using this

theorem all_rem_zero_of_countP (ps : List Process)
    (h : ps.countP (fun p => decide (p.remaining_time = 0)) = ps.length) :
    ∀ p ∈ ps, p.remaining_time = 0 := by
  intro p hp
  exact of_decide_eq_true (List.countP_eq_length.1 h p hp)

theorem countP_eq_length_of_all (ps : List Process)
    (h : ∀ p ∈ ps, p.remaining_time = 0) :
    ps.countP (fun p => decide (p.remaining_time = 0)) = ps.length :=
  List.countP_eq_length.2 (fun p hp => decide_eq_true (h p hp))

theorem forall_mem_of_forall_getD {α : Type} (l : List α) (d : α) (P : α → Prop)
    (h : ∀ i, i < l.length → P (l.getD i d)) : ∀ p ∈ l, P p := by
  intro p hp
  obtain ⟨i, hi, heq⟩ := List.mem_iff_getElem.1 hp
  have hgd : l.getD i d = p := by
    rw [List.getD_eq_getElem?_getD, List.getElem?_eq_getElem hi]
    exact heq
  rw [← hgd]
  exact h i hi

/-- Variant of `RRInv_enq` with the scan result as explicit data. -/
theorem RRInv_enq2 (s : RRState) (hi : RRInv s) (q1 : List Nat) (n1 : Nat)
    (henq : enqueueArrivals s.procs s.t s.queue s.nextIdx = (q1, n1)) :
    RRInv { s with queue := q1, nextIdx := n1 } := by
  have h := RRInv_enq s hi
  rw [henq] at h
  exact h

/-- A work pass of the RR loop (nonempty ready queue after the arrival
scan): the invariant is preserved and the outstanding work strictly
decreases. -/
theorem rrStep_work_inv (tq : Int) (htq : 1 ≤ tq) (s : RRState) (hi : RRInv s)
    (j : Nat) (qrest : List Nat) (n1 : Nat)
    (hdone : ¬ s.completed = s.procs.length)
    (henq : enqueueArrivals s.procs s.t s.queue s.nextIdx = (j :: qrest, n1)) :
    ∃ s2, rrStep tq s = .step s2 ∧ RRInv s2 ∧
      s2.procs.length = s.procs.length ∧
      s2.procs.map statics = s.procs.map statics ∧
      WsumP s2.procs < WsumP s.procs := by
  obtain ⟨e1, e2, e3, e4, e5⟩ :=
    enqueueArrivals_spec s.procs s.t (s.procs.length - s.nextIdx) s.queue s.nextIdx
      (le_refl _) hi.next_le
  rw [henq] at e1 e2 e3 e4 e5
  have hs1 := RRInv_enq2 s hi (j :: qrest) n1 henq
  have hn1len : n1 ≤ s.procs.length := hs1.next_le
  have hjn1 : j < n1 := hs1.queue_lt j (by simp)
  have hjlen : j < s.procs.length := lt_of_lt_of_le hjn1 hn1len
  have hjrem : 1 ≤ (s.procs.getD j defaultProcess).remaining_time :=
    hs1.queue_rem j (by simp)
  have hjarr : (s.procs.getD j defaultProcess).arrival_time ≤ s.t :=
    hs1.arrived_le j hjn1
  have hnd : (j :: qrest).Nodup := hs1.queue_nd
  have hjq : j ∉ qrest := (List.nodup_cons.1 hnd).1
  have hndr : qrest.Nodup := (List.nodup_cons.1 hnd).2
  have hqrest_lt : ∀ a ∈ qrest, a < n1 :=
    fun a ha => hs1.queue_lt a (List.mem_cons_of_mem _ ha)
  have hqrest_rem : ∀ a ∈ qrest, 1 ≤ (s.procs.getD a defaultProcess).remaining_time :=
    fun a ha => hs1.queue_rem a (List.mem_cons_of_mem _ ha)
  obtain ⟨hex1, hex2⟩ :=
    rrExecTime_bounds tq s.t (s.procs.getD j defaultProcess) htq hjrem
  have hp2rem : (rrExecP tq s.t (s.procs.getD j defaultProcess)).remaining_time
      = (s.procs.getD j defaultProcess).remaining_time
        - rrExecTime tq (rrTouch s.t (s.procs.getD j defaultProcess)) := by
    rw [rrExecP_remaining, rrExecTime_touch]
  have hlen2 : (s.procs.set j (rrExecP tq s.t (s.procs.getD j defaultProcess))).length
      = s.procs.length := List.length_set _ _ _
  obtain ⟨f1, f2, f3, f4, f5⟩ :=
    enqueueArrivals_spec (s.procs.set j (rrExecP tq s.t (s.procs.getD j defaultProcess)))
      (s.t + rrExecTime tq (rrTouch s.t (s.procs.getD j defaultProcess)))
      ((s.procs.set j (rrExecP tq s.t (s.procs.getD j defaultProcess))).length - n1)
      qrest n1 (le_refl _) (by rw [hlen2]; exact hn1len)
  rw [hlen2] at f2 f5
  have harrset : ∀ i,
      ((s.procs.set j (rrExecP tq s.t (s.procs.getD j defaultProcess))).getD i
        defaultProcess).arrival_time
      = (s.procs.getD i defaultProcess).arrival_time := by
    intro i
    by_cases hij : i = j
    · subst hij
      rw [getD_set_self _ _ _ _ hjlen, rrExecP_arrival]
    · rw [getD_set_ne _ _ _ _ _ hij]
  have hremset_ne : ∀ i, i ≠ j →
      ((s.procs.set j (rrExecP tq s.t (s.procs.getD j defaultProcess))).getD i
        defaultProcess).remaining_time
      = (s.procs.getD i defaultProcess).remaining_time := by
    intro i hij
    rw [getD_set_ne _ _ _ _ _ hij]
  -- facts about the members of the post-slice queue
  have hq2mem : ∀ a ∈ (enqueueArrivals
      (s.procs.set j (rrExecP tq s.t (s.procs.getD j defaultProcess)))
      (s.t + rrExecTime tq (rrTouch s.t (s.procs.getD j defaultProcess))) qrest n1).1,
      a < (enqueueArrivals
        (s.procs.set j (rrExecP tq s.t (s.procs.getD j defaultProcess)))
        (s.t + rrExecTime tq (rrTouch s.t (s.procs.getD j defaultProcess))) qrest n1).2 ∧
      a ≠ j ∧ 1 ≤ (s.procs.getD a defaultProcess).remaining_time := by
    intro a ha
    rw [f3] at ha
    rcases List.mem_append.1 ha with hold | hnew
    · have h1 := hqrest_lt a hold
      refine ⟨by omega, ?_, hqrest_rem a hold⟩
      intro habs
      exact hjq (habs ▸ hold)
    · obtain ⟨h1, h2⟩ := List.mem_range'_1.1 hnew
      refine ⟨by omega, by omega, ?_⟩
      exact hi.unarrived a (by omega) (by omega)
  have hq2nd : ((enqueueArrivals
      (s.procs.set j (rrExecP tq s.t (s.procs.getD j defaultProcess)))
      (s.t + rrExecTime tq (rrTouch s.t (s.procs.getD j defaultProcess))) qrest n1).1).Nodup := by
    rw [f3]
    refine List.Nodup.append hndr (List.nodup_range' _ _) ?_
    rw [List.disjoint_left]
    intro a ha hb
    obtain ⟨h1, _⟩ := List.mem_range'_1.1 hb
    exact absurd (hqrest_lt a ha) (by omega)
  have hq2arr : ∀ a ∈ (enqueueArrivals
      (s.procs.set j (rrExecP tq s.t (s.procs.getD j defaultProcess)))
      (s.t + rrExecTime tq (rrTouch s.t (s.procs.getD j defaultProcess))) qrest n1).1,
      (s.procs.getD a defaultProcess).arrival_time
        ≤ s.t + rrExecTime tq (rrTouch s.t (s.procs.getD j defaultProcess)) := by
    intro a ha
    rw [f3] at ha
    rcases List.mem_append.1 ha with hold | hnew
    · have h0 : (s.procs.getD a defaultProcess).arrival_time ≤ s.t :=
        hs1.arrived_le a (hqrest_lt a hold)
      omega
    · obtain ⟨h1, h2⟩ := List.mem_range'_1.1 hnew
      have := f4 a h1 (by omega)
      rw [harrset a] at this
      exact this
  -- the not-yet-arrived region is untouched
  have hunarr2 : ∀ i, (enqueueArrivals
      (s.procs.set j (rrExecP tq s.t (s.procs.getD j defaultProcess)))
      (s.t + rrExecTime tq (rrTouch s.t (s.procs.getD j defaultProcess))) qrest n1).2 ≤ i →
      i < s.procs.length → 1 ≤ (s.procs.getD i defaultProcess).remaining_time := by
    intro i h1 h2
    exact hi.unarrived i (by omega) h2
  by_cases hz : (rrExecP tq s.t (s.procs.getD j defaultProcess)).remaining_time = 0
  · -- the process finishes within this slice
    refine ⟨_, rrStep_complete_eq tq s j qrest n1 hdone henq hz, ?_, ?_, ?_, ?_⟩
    · refine RRInv.mk ?_ ?_ ?_ ?_ ?_ ?_ ?_ ?_ ?_
      ·
        show (enqueueArrivals _ _ qrest n1).2 ≤ _
        rw [List.length_set, List.length_set]
        exact f2
      ·
        intro a ha
        exact (hq2mem a ha).1
      ·
        intro a ha
        obtain ⟨h1, h2, h3⟩ := hq2mem a ha
        show 1 ≤ ((((s.procs.set j _).set j _).getD a defaultProcess)).remaining_time
        rw [List.set_set, getD_set_ne _ _ _ _ _ h2]
        exact h3
      · exact hq2nd
      ·
        intro i hlt hnm
        show ((((s.procs.set j _).set j _).getD i defaultProcess)).remaining_time = 0
        rw [List.set_set]
        by_cases hij : i = j
        · subst hij
          rw [getD_set_self _ _ _ _ hjlen]
          exact hz
        · rw [getD_set_ne _ _ _ _ _ hij]
          by_cases hi0 : i < n1
          · refine hs1.partition i hi0 ?_
            intro hmem
            rcases List.mem_cons.1 hmem with rfl | hmem2
            · exact hij rfl
            · refine hnm ?_
              rw [f3]
              exact List.mem_append.2 (Or.inl hmem2)
          · exfalso
            have hlt2 : i < (enqueueArrivals
              (s.procs.set j (rrExecP tq s.t (s.procs.getD j defaultProcess)))
              (s.t + rrExecTime tq (rrTouch s.t (s.procs.getD j defaultProcess))) qrest n1).2 := hlt
            refine hnm ?_
            rw [f3]
            refine List.mem_append.2 (Or.inr (List.mem_range'_1.2 ⟨by omega, by omega⟩))
      ·
        intro i h1 h2
        have h2b : i < s.procs.length := by
          rw [List.length_set, List.length_set] at h2
          exact h2
        have h1b : (enqueueArrivals _ _ qrest n1).2 ≤ i := h1
        have hij : i ≠ j := by omega
        show 1 ≤ ((((s.procs.set j _).set j _).getD i defaultProcess)).remaining_time
        rw [List.set_set, getD_set_ne _ _ _ _ _ hij]
        exact hunarr2 i h1b h2b
      ·
        show s.completed + 1
          = ((s.procs.set j (rrExecP tq s.t (s.procs.getD j defaultProcess))).set j
              { rrExecP tq s.t (s.procs.getD j defaultProcess) with
                completion_time :=
                  s.t + rrExecTime tq (rrTouch s.t (s.procs.getD j defaultProcess)) }).countP
              (fun p => decide (p.remaining_time = 0))
        rw [List.set_set]
        have hcnt := countPz_set s.procs j
          ({ rrExecP tq s.t (s.procs.getD j defaultProcess) with
             completion_time := s.t + rrExecTime tq (rrTouch s.t (s.procs.getD j defaultProcess)) })
          hjlen
        have hnew0 : ({ rrExecP tq s.t (s.procs.getD j defaultProcess) with
            completion_time := s.t + rrExecTime tq (rrTouch s.t (s.procs.getD j defaultProcess)) }
            : Process).remaining_time = 0 := hz
        rw [if_neg (by omega), if_pos hnew0] at hcnt
        rw [hi.completed_eq]
        omega
      ·
        intro i hlt
        have hlt2 : i < (enqueueArrivals
          (s.procs.set j (rrExecP tq s.t (s.procs.getD j defaultProcess)))
          (s.t + rrExecTime tq (rrTouch s.t (s.procs.getD j defaultProcess))) qrest n1).2 := hlt
        have harrB : (s.procs.getD i defaultProcess).arrival_time
            ≤ s.t + rrExecTime tq (rrTouch s.t (s.procs.getD j defaultProcess)) := by
          by_cases hi0 : i < n1
          · have h0 : (s.procs.getD i defaultProcess).arrival_time ≤ s.t :=
              hs1.arrived_le i hi0
            omega
          · have h1 := f4 i (by omega) (by omega)
            rw [harrset i] at h1
            exact h1
        show (((s.procs.set j (rrExecP tq s.t (s.procs.getD j defaultProcess))).set j
            { rrExecP tq s.t (s.procs.getD j defaultProcess) with
              completion_time :=
                s.t + rrExecTime tq (rrTouch s.t (s.procs.getD j defaultProcess)) }).getD
            i defaultProcess).arrival_time
          ≤ s.t + rrExecTime tq (rrTouch s.t (s.procs.getD j defaultProcess))
        rw [List.set_set]
        by_cases hij : i = j
        · subst hij
          rw [getD_set_self _ _ _ _ hjlen]
          show (rrExecP tq s.t (s.procs.getD i defaultProcess)).arrival_time
            ≤ s.t + rrExecTime tq (rrTouch s.t (s.procs.getD i defaultProcess))
          rw [rrExecP_arrival]
          exact harrB
        · rw [getD_set_ne _ _ _ _ _ hij]
          exact harrB
      ·
        intro p hp hprem
        show p.arrival_time ≤ p.completion_time
        have hp2 : p ∈ s.procs.set j ({ rrExecP tq s.t (s.procs.getD j defaultProcess) with
            completion_time := s.t + rrExecTime tq (rrTouch s.t (s.procs.getD j defaultProcess)) }) := by
          rw [← List.set_set]
          exact hp
        rcases List.mem_or_eq_of_mem_set hp2 with hmem | rfl
        · exact hi.done_ok p hmem hprem
        · show (rrExecP tq s.t (s.procs.getD j defaultProcess)).arrival_time
            ≤ s.t + rrExecTime tq (rrTouch s.t (s.procs.getD j defaultProcess))
          rw [rrExecP_arrival]
          omega
    · show ((s.procs.set j _).set j _).length = s.procs.length
      rw [List.length_set, List.length_set]
    · show ((s.procs.set j _).set j _).map statics = s.procs.map statics
      rw [List.set_set]
      refine map_statics_setP s.procs j _ hjlen ?_
      show statics (rrExecP tq s.t (s.procs.getD j defaultProcess)) = _
      rw [rrExecP_statics]
    · show WsumP ((s.procs.set j _).set j _) < WsumP s.procs
      rw [List.set_set]
      have hws := WsumP_set s.procs j
        ({ rrExecP tq s.t (s.procs.getD j defaultProcess) with
           completion_time := s.t + rrExecTime tq (rrTouch s.t (s.procs.getD j defaultProcess)) })
        hjlen
      have hnew0 : ({ rrExecP tq s.t (s.procs.getD j defaultProcess) with
          completion_time := s.t + rrExecTime tq (rrTouch s.t (s.procs.getD j defaultProcess)) }
          : Process).remaining_time = 0 := hz
      rw [hnew0] at hws
      omega
  · -- the process is preempted and re-enqueued at the tail
    refine ⟨_, rrStep_preempt_eq tq s j qrest n1 hdone henq hz, ?_, ?_, ?_, ?_⟩
    · refine RRInv.mk ?_ ?_ ?_ ?_ ?_ ?_ ?_ ?_ ?_
      ·
        show (enqueueArrivals _ _ qrest n1).2 ≤ _
        rw [List.length_set]
        exact f2
      ·
        intro a ha
        rcases List.mem_append.1 ha with h1 | h2
        · exact (hq2mem a h1).1
        · have haj : a = j := by simpa using h2
          show a < (enqueueArrivals
            (s.procs.set j (rrExecP tq s.t (s.procs.getD j defaultProcess)))
            (s.t + rrExecTime tq (rrTouch s.t (s.procs.getD j defaultProcess))) qrest n1).2
          omega
      ·
        intro a ha
        rcases List.mem_append.1 ha with h1 | h2
        · obtain ⟨hh1, hh2, hh3⟩ := hq2mem a h1
          show 1 ≤ ((s.procs.set j _).getD a defaultProcess).remaining_time
          rw [getD_set_ne _ _ _ _ _ hh2]
          exact hh3
        · have haj : a = j := by simpa using h2
          show 1 ≤ ((s.procs.set j (rrExecP tq s.t (s.procs.getD j defaultProcess))).getD a
            defaultProcess).remaining_time
          rw [haj, getD_set_self _ _ _ _ hjlen]
          omega
      ·
        refine List.Nodup.append hq2nd (List.nodup_cons.2 ⟨List.not_mem_nil j, List.nodup_nil⟩) ?_
        rw [List.disjoint_left]
        intro a ha hb
        obtain rfl : a = j := by simpa using hb
        exact (hq2mem a ha).2.1 rfl
      ·
        intro i hlt hnm
        show ((s.procs.set j _).getD i defaultProcess).remaining_time = 0
        have hij : i ≠ j := by
          intro habs
          exact hnm (List.mem_append.2 (Or.inr (by simp [habs])))
        rw [getD_set_ne _ _ _ _ _ hij]
        by_cases hi0 : i < n1
        · refine hs1.partition i hi0 ?_
          intro hmem
          rcases List.mem_cons.1 hmem with rfl | hmem2
          · exact hij rfl
          · refine hnm (List.mem_append.2 (Or.inl ?_))
            rw [f3]
            exact List.mem_append.2 (Or.inl hmem2)
        · exfalso
          refine hnm (List.mem_append.2 (Or.inl ?_))
          rw [f3]
          exact List.mem_append.2 (Or.inr (List.mem_range'_1.2 ⟨by omega, by
            have hlt2 : i < (enqueueArrivals _ _ qrest n1).2 := hlt
            omega⟩))
      ·
        intro i h1 h2
        have h2b : i < s.procs.length := by
          rw [List.length_set] at h2
          exact h2
        have h1b : (enqueueArrivals _ _ qrest n1).2 ≤ i := h1
        have hij : i ≠ j := by omega
        show 1 ≤ ((s.procs.set j _).getD i defaultProcess).remaining_time
        rw [getD_set_ne _ _ _ _ _ hij]
        exact hunarr2 i h1b h2b
      ·
        show s.completed = (s.procs.set j (rrExecP tq s.t (s.procs.getD j defaultProcess))).countP
          (fun p => decide (p.remaining_time = 0))
        have hcnt := countPz_set s.procs j
          (rrExecP tq s.t (s.procs.getD j defaultProcess)) hjlen
        rw [if_neg (by omega), if_neg hz] at hcnt
        rw [hi.completed_eq]
        omega
      ·
        intro i hlt
        show ((s.procs.set j _).getD i defaultProcess).arrival_time
          ≤ s.t + rrExecTime tq (rrTouch s.t (s.procs.getD j defaultProcess))
        rw [harrset i]
        by_cases hi0 : i < n1
        · have h0 : (s.procs.getD i defaultProcess).arrival_time ≤ s.t :=
            hs1.arrived_le i hi0
          omega
        · have hlt2 : i < (enqueueArrivals _ _ qrest n1).2 := hlt
          have := f4 i (by omega) (by omega)
          rw [harrset i] at this
          exact this
      ·
        intro p hp hprem
        rcases List.mem_or_eq_of_mem_set hp with hmem | rfl
        · exact hi.done_ok p hmem hprem
        · exact absurd hprem hz
    · show (s.procs.set j _).length = s.procs.length
      rw [List.length_set]
    · show (s.procs.set j _).map statics = s.procs.map statics
      refine map_statics_setP s.procs j _ hjlen ?_
      rw [rrExecP_statics]
    · show WsumP (s.procs.set j _) < WsumP s.procs
      have hws := WsumP_set s.procs j
        (rrExecP tq s.t (s.procs.getD j defaultProcess)) hjlen
      rw [hp2rem] at hws
      rw [hp2rem] at hz
      omega

/-- Case analysis of one RR loop pass under the invariant: the loop either
exits with every process finished, idle-jumps to the next arrival (never
twice in a row), or performs a slice of work that strictly decreases the
outstanding total; the `break` of rr.c line 180 is unreachable. -/
theorem rrStep_main (tq : Int) (htq : 1 ≤ tq) (s : RRState) (hi : RRInv s) :
    (rrStep tq s = .halt s.procs ∧ s.completed = s.procs.length ∧
      ∀ p ∈ s.procs, p.remaining_time = 0) ∨
    (∃ s2, rrStep tq s = .step s2 ∧ RRInv s2 ∧
      s2.procs.length = s.procs.length ∧
      s2.procs.map statics = s.procs.map statics ∧
      (WsumP s2.procs < WsumP s.procs ∨
        (s2.procs = s.procs ∧ s2.queue = [] ∧ s2.completed = s.completed ∧
         s2.nextIdx = s.nextIdx ∧ s2.nextIdx < s.procs.length ∧
         s2.t = (s.procs.getD s2.nextIdx defaultProcess).arrival_time ∧ s.t < s2.t))) := by
  by_cases hdone : s.completed = s.procs.length
  · left
    refine ⟨rrStep_halt_eq tq s hdone, hdone, ?_⟩
    refine all_rem_zero_of_countP s.procs ?_
    rw [← hi.completed_eq, hdone]
  · right
    obtain ⟨e1, e2, e3, e4, e5⟩ :=
      enqueueArrivals_spec s.procs s.t (s.procs.length - s.nextIdx) s.queue s.nextIdx
        (le_refl _) hi.next_le
    cases hq1 : (enqueueArrivals s.procs s.t s.queue s.nextIdx).1 with
    | nil =>
      have henq : enqueueArrivals s.procs s.t s.queue s.nextIdx
          = ([], (enqueueArrivals s.procs s.t s.queue s.nextIdx).2) := by
        rw [← hq1]
      have happ : s.queue ++ List.range' s.nextIdx
          ((enqueueArrivals s.procs s.t s.queue s.nextIdx).2 - s.nextIdx) = [] := by
        rw [← e3, hq1]
      obtain ⟨hqe, hrange⟩ := List.append_eq_nil.1 happ
      have hn1eq : (enqueueArrivals s.procs s.t s.queue s.nextIdx).2 = s.nextIdx := by
        have := congrArg List.length hrange
        rw [List.length_range'] at this
        simp at this
        omega
      by_cases hn : (enqueueArrivals s.procs s.t s.queue s.nextIdx).2 < s.procs.length
      · -- idle jump
        refine ⟨_, rrStep_jump_eq tq s _ hdone henq hn, ?_, rfl, rfl, Or.inr ?_⟩
        · have hs1 := RRInv_enq2 s hi []
            (enqueueArrivals s.procs s.t s.queue s.nextIdx).2 henq
          refine RRInv.mk ?_ ?_ ?_ ?_ ?_ ?_ ?_ ?_ ?_
          · exact hs1.next_le
          · intro a ha
            exact absurd ha (List.not_mem_nil a)
          · intro a ha
            exact absurd ha (List.not_mem_nil a)
          · exact List.nodup_nil
          · intro i hlt hnm
            exact hs1.partition i hlt (List.not_mem_nil i)
          · intro i h1 h2
            exact hs1.unarrived i h1 h2
          · exact hi.completed_eq
          · intro i hlt
            have hlt2 : i < (enqueueArrivals s.procs s.t s.queue s.nextIdx).2 := hlt
            show (s.procs.getD i defaultProcess).arrival_time
              ≤ (s.procs.getD (enqueueArrivals s.procs s.t s.queue s.nextIdx).2
                  defaultProcess).arrival_time
            have h0 : (s.procs.getD i defaultProcess).arrival_time ≤ s.t :=
              hs1.arrived_le i hlt2
            have h1 : s.t < (s.procs.getD (enqueueArrivals s.procs s.t s.queue
                s.nextIdx).2 defaultProcess).arrival_time := e5 hn
            omega
          · exact hi.done_ok
        · refine ⟨rfl, rfl, rfl, hn1eq, ?_, rfl, ?_⟩
          · show (enqueueArrivals s.procs s.t s.queue s.nextIdx).2 < s.procs.length
            exact hn
          · show s.t < (s.procs.getD (enqueueArrivals s.procs s.t s.queue
              s.nextIdx).2 defaultProcess).arrival_time
            exact e5 hn
      · -- the break of rr.c line 180: impossible under the invariant
        exfalso
        have hnxt : s.nextIdx = s.procs.length := by omega
        have hall : ∀ p ∈ s.procs, p.remaining_time = 0 := by
          refine forall_mem_of_forall_getD s.procs defaultProcess _ ?_
          intro i hilen
          refine hi.partition i (by omega) ?_
          rw [hqe]
          exact List.not_mem_nil i
        refine hdone ?_
        rw [hi.completed_eq, countP_eq_length_of_all s.procs hall]
    | cons j qrest =>
      have henq : enqueueArrivals s.procs s.t s.queue s.nextIdx
          = (j :: qrest, (enqueueArrivals s.procs s.t s.queue s.nextIdx).2) := by
        rw [← hq1]
      obtain ⟨s2, hstep, hinv2, hlen, hstat, hws⟩ :=
        rrStep_work_inv tq htq s hi j qrest _ hdone henq
      exact ⟨s2, hstep, hinv2, hlen, hstat, Or.inl hws⟩

/-- Fuel monotonicity for the RR loop. -/
theorem rrLoop_mono (tq : Int) : ∀ (fuel : Nat) (s : RRState) (out : List Process),
    rrLoop tq fuel s = some out → rrLoop tq (fuel + 1) s = some out := by
  intro fuel
  induction fuel with
  | zero => intro s out h; exact Option.noConfusion h
  | succ f ih =>
    intro s out h
    rw [rrLoop] at h ⊢
    cases hst : rrStep tq s with
    | halt ps =>
      rw [hst] at h
      exact h
    | step s2 =>
      rw [hst] at h
      exact ih _ _ h

/-- The RR loop terminates with a positive quantum: `2W + 2` fuel suffices
when the outstanding work is at most `W`. -/
theorem rrLoop_term (tq : Int) (htq : 1 ≤ tq) : ∀ (W : Nat) (s : RRState),
    RRInv s → WsumP s.procs ≤ W → (rrLoop tq (2 * W + 2) s).isSome := by
  intro W
  induction W with
  | zero =>
    intro s hi hw
    rcases rrStep_main tq htq s hi with ⟨hstep, _, _⟩ | ⟨s2, hstep, hinv2, hlen, _, hdisj⟩
    · rw [show 2 * 0 + 2 = 1 + 1 from rfl, rrLoop, hstep]
      rfl
    · rcases hdisj with hws | ⟨hpeq, hqe, hceq, hneq, hnlt, hteq, htlt⟩
      · omega
      · rcases rrStep_main tq htq s2 hinv2 with ⟨hstep2, _, _⟩ |
          ⟨s3, hstep3, hinv3, _, _, hdisj3⟩
        · rw [show 2 * 0 + 2 = (0 + 1) + 1 from rfl, rrLoop, hstep]
          show (rrLoop tq (0 + 1) s2).isSome
          rw [rrLoop, hstep2]
          rfl
        · rcases hdisj3 with hws3 | ⟨_, _, _, hneq3, _, hteq3, htlt3⟩
          · rw [hpeq] at hws3
            omega
          · exfalso
            rw [hneq3, hpeq] at hteq3
            omega
  | succ W ih =>
    intro s hi hw
    rcases rrStep_main tq htq s hi with ⟨hstep, _, _⟩ | ⟨s2, hstep, hinv2, hlen, _, hdisj⟩
    · rw [show 2 * (W + 1) + 2 = (2 * W + 3) + 1 by omega, rrLoop, hstep]
      rfl
    · rcases hdisj with hws | ⟨hpeq, hqe, hceq, hneq, hnlt, hteq, htlt⟩
      · have hw2 : WsumP s2.procs ≤ W := by omega
        obtain ⟨r, hr⟩ := Option.isSome_iff_exists.1 (ih s2 hinv2 hw2)
        rw [show 2 * (W + 1) + 2 = (2 * W + 2 + 1) + 1 by omega, rrLoop, hstep]
        show (rrLoop tq (2 * W + 2 + 1) s2).isSome
        rw [rrLoop_mono tq _ _ _ hr]
        rfl
      · rcases rrStep_main tq htq s2 hinv2 with ⟨hstep2, _, _⟩ |
          ⟨s3, hstep3, hinv3, _, _, hdisj3⟩
        · rw [show 2 * (W + 1) + 2 = (2 * W + 2 + 1) + 1 by omega, rrLoop, hstep]
          show (rrLoop tq (2 * W + 2 + 1) s2).isSome
          rw [rrLoop, hstep2]
          rfl
        · rcases hdisj3 with hws3 | ⟨_, _, _, hneq3, _, hteq3, htlt3⟩
          · have hw3 : WsumP s3.procs ≤ W := by
              rw [hpeq] at hws3
              omega
            rw [show 2 * (W + 1) + 2 = ((2 * W + 2) + 1) + 1 by omega, rrLoop, hstep]
            show (rrLoop tq ((2 * W + 2) + 1) s2).isSome
            rw [rrLoop, hstep3]
            exact ih s3 hinv3 hw3
          · exfalso
            rw [hneq3, hpeq] at hteq3
            omega

/-- What the RR loop guarantees about its output, given the invariant. -/
theorem rrLoop_out (tq : Int) (htq : 1 ≤ tq) : ∀ (fuel : Nat) (s : RRState)
    (out : List Process), rrLoop tq fuel s = some out → RRInv s →
    out.length = s.procs.length ∧ out.map statics = s.procs.map statics ∧
    ∀ p ∈ out, p.remaining_time = 0 ∧ p.arrival_time ≤ p.completion_time := by
  intro fuel
  induction fuel with
  | zero => intro s out h; exact Option.noConfusion h
  | succ f ih =>
    intro s out h hi
    rw [rrLoop] at h
    rcases rrStep_main tq htq s hi with ⟨hstep, _, hall⟩ | ⟨s2, hstep, hinv2, hlen, hstat, _⟩
    · rw [hstep] at h
      have hout : s.procs = out := by
        have h2 : some s.procs = some out := h
        exact Option.some.injEq .. ▸ h2
      subst hout
      exact ⟨rfl, rfl, fun p hp => ⟨hall p hp, hi.done_ok p hp (hall p hp)⟩⟩
    · rw [hstep] at h
      obtain ⟨ihl, ihs, ihq⟩ := ih s2 out h hinv2
      exact ⟨ihl.trans hlen, ihs.trans hstat, ihq⟩

/-! ### Initial states of the schedulers -/

theorem WellFormed_sort (ps : List Process) (hwf : WellFormed ps) :
    WellFormed (sortByArrival ps) := by
  intro p hp
  exact hwf p ((List.perm_insertionSort arrLe ps).mem_iff.1 hp)

theorem sort_length (ps : List Process) : (sortByArrival ps).length = ps.length :=
  (List.perm_insertionSort arrLe ps).length_eq

theorem sort_statics (ps : List Process) :
    ((sortByArrival ps).map statics).Perm (ps.map statics) :=
  (List.perm_insertionSort arrLe ps).map statics

theorem sort_wsum (ps : List Process) : WsumP (sortByArrival ps) = WsumP ps := by
  show ((List.insertionSort arrLe ps).map (fun p => p.remaining_time.toNat)).sum
    = (ps.map (fun p => p.remaining_time.toNat)).sum
  exact ((List.perm_insertionSort arrLe ps).map (fun p => p.remaining_time.toNat)).sum_eq

theorem NPInv_init (ps : List Process) (hwf : WellFormed ps) :
    NPInv ((sortByArrival ps).map (fun p => (p, false))) := by
  intro pd hpd
  obtain ⟨p, hp, rfl⟩ := List.mem_map.1 hpd
  obtain ⟨_, hb, _, _⟩ := WellFormed_sort ps hwf p hp
  exact ⟨hb, fun habs => absurd habs (by simp)⟩

theorem SRInv_init (ps : List Process) (hwf : WellFormed ps) :
    SRInv ((sortByArrival ps).map (fun p => (p, false))) := by
  intro pd hpd
  obtain ⟨p, hp, rfl⟩ := List.mem_map.1 hpd
  obtain ⟨_, hb, hr, _⟩ := WellFormed_sort ps hwf p hp
  constructor
  · intro _
    show 1 ≤ p.remaining_time
    omega
  · intro habs
    exact absurd habs (by simp)

theorem countP_done_init (ps : List Process) :
    ((sortByArrival ps).map (fun p => (p, false))).countP (fun pd => pd.2) = 0 := by
  rw [List.countP_eq_zero]
  intro pd hpd
  obtain ⟨p, _, rfl⟩ := List.mem_map.1 hpd
  simp

theorem Wsum_init (ps : List Process) :
    Wsum ((sortByArrival ps).map (fun p => (p, false)))
      = (ps.map (fun p => p.remaining_time.toNat)).sum := by
  rw [Wsum, List.map_map]
  have := ((List.perm_insertionSort arrLe ps).map (fun p => p.remaining_time.toNat)).sum_eq
  simpa using this

theorem RRInv_init (ps : List Process) (hwf : WellFormed ps) : RRInv (rrInit ps) := by
  have hwfs := WellFormed_sort ps hwf
  refine RRInv.mk ?_ ?_ ?_ ?_ ?_ ?_ ?_ ?_ ?_
  · show 0 ≤ (sortByArrival ps).length
    omega
  · intro a ha
    exact absurd ha (List.not_mem_nil a)
  · intro a ha
    exact absurd ha (List.not_mem_nil a)
  · exact List.nodup_nil
  · intro i hlt hnm
    exact absurd (show i < 0 from hlt) (by omega)
  · intro i h1 h2
    have h2b : i < (sortByArrival ps).length := h2
    obtain ⟨_, hb, hr, _⟩ := hwfs _ (getD_mem (sortByArrival ps) i defaultProcess h2b)
    show 1 ≤ ((sortByArrival ps).getD i defaultProcess).remaining_time
    omega
  · show 0 = (sortByArrival ps).countP (fun p => decide (p.remaining_time = 0))
    symm
    rw [List.countP_eq_zero]
    intro p hp
    obtain ⟨_, hb, hr, _⟩ := hwfs p hp
    simp only [decide_eq_true_eq]
    omega
  · intro i hlt
    exact absurd (show i < 0 from hlt) (by omega)
  · intro p hp h0
    obtain ⟨_, hb, hr, _⟩ := hwfs p hp
    omega

theorem WsumP_init (ps : List Process) : WsumP (rrInit ps).procs = WsumP ps :=
  sort_wsum ps

/-! ### Top-level plumbing -/

theorem setDerived_remaining (p : Process) : (setDerived p).remaining_time = p.remaining_time := rfl

theorem setDerived_arrival (p : Process) : (setDerived p).arrival_time = p.arrival_time := rfl

theorem setDerived_completion (p : Process) :
    (setDerived p).completion_time = p.completion_time := rfl

theorem setDerived_response (p : Process) : (setDerived p).response_time = p.response_time := rfl

theorem setDerived_waiting (p : Process) :
    (setDerived p).waiting_time = (p.completion_time - p.arrival_time) - p.burst_time := rfl

theorem setDerived_burst (p : Process) : (setDerived p).burst_time = p.burst_time := rfl

theorem setDerived_statics (p : Process) : statics (setDerived p) = statics p := rfl

theorem sjfNPLoop_init_some (ps : List Process) :
    ∃ out, sjfNPLoop (2 * ps.length + 1) 0
      ((sortByArrival ps).map (fun p => (p, false))) = some out := by
  have hlen : ((sortByArrival ps).map (fun p => (p, false))).length = ps.length := by
    rw [List.length_map, sort_length]
  have hterm := sjfNPLoop_term ps.length 0 ((sortByArrival ps).map (fun p => (p, false)))
    (by rw [hlen, countP_done_init]; omega)
  exact Option.isSome_iff_exists.1 hterm

theorem srtfLoop_init_some (ps : List Process) (hwf : WellFormed ps) :
    ∃ out, srtfLoop (srtfFuel ps) 0
      ((sortByArrival ps).map (fun p => (p, false))) = some out := by
  have hterm := srtfLoop_term ((ps.map (fun p => p.remaining_time.toNat)).sum) 0
    ((sortByArrival ps).map (fun p => (p, false))) (SRInv_init ps hwf)
    (le_of_eq (Wsum_init ps))
  exact Option.isSome_iff_exists.1 hterm

theorem rrLoop_init_some (ps : List Process) (tq : Int) (htq : 1 ≤ tq)
    (hwf : WellFormed ps) :
    ∃ out, rrLoop tq (rrFuel ps) (rrInit ps) = some out := by
  have hterm := rrLoop_term tq htq ((ps.map (fun p => p.remaining_time.toNat)).sum)
    (rrInit ps) (RRInv_init ps hwf) (by rw [WsumP_init ps]; exact le_refl _)
  exact Option.isSome_iff_exists.1 hterm

/-! ### Behaviour of `rr_schedule` on a non-positive quantum -/

/-- States from which the RR loop cannot make progress when the quantum is
non-positive: work remains, and it never shrinks because every slice has
`execution_time = time_quantum ≤ 0`. -/
def RRStuck (s : RRState) : Prop :=
  (∀ p ∈ s.procs, 1 ≤ p.remaining_time) ∧
  s.completed = 0 ∧
  0 < s.procs.length ∧
  s.nextIdx ≤ s.procs.length ∧
  (s.queue ≠ [] ∨ s.nextIdx < s.procs.length) ∧
  (∀ j ∈ s.queue, j < s.procs.length)

/-- With a non-positive quantum, every pass from a stuck state steps to
another stuck state (no process ever finishes, the loop never exits). -/
theorem rrStep_nonpos (tq : Int) (htq : tq ≤ 0) (s : RRState) (hs : RRStuck s) :
    ∃ s2, rrStep tq s = .step s2 ∧ RRStuck s2 := by
  obtain ⟨hrem, hcom, hpos, hnl, hprog, hqlt⟩ := hs
  have hdone : ¬ s.completed = s.procs.length := by omega
  obtain ⟨e1, e2, e3, e4, e5⟩ :=
    enqueueArrivals_spec s.procs s.t (s.procs.length - s.nextIdx) s.queue s.nextIdx
      (le_refl _) hnl
  cases hq1 : (enqueueArrivals s.procs s.t s.queue s.nextIdx).1 with
  | nil =>
    have henq : enqueueArrivals s.procs s.t s.queue s.nextIdx
        = ([], (enqueueArrivals s.procs s.t s.queue s.nextIdx).2) := by
      rw [← hq1]
    have happ : s.queue ++ List.range' s.nextIdx
        ((enqueueArrivals s.procs s.t s.queue s.nextIdx).2 - s.nextIdx) = [] := by
      rw [← e3, hq1]
    obtain ⟨hqe, hrange⟩ := List.append_eq_nil.1 happ
    have hn1eq : (enqueueArrivals s.procs s.t s.queue s.nextIdx).2 = s.nextIdx := by
      have := congrArg List.length hrange
      rw [List.length_range'] at this
      simp at this
      omega
    have hn : (enqueueArrivals s.procs s.t s.queue s.nextIdx).2 < s.procs.length := by
      rcases hprog with hq | hnext
      · exact absurd hqe hq
      · omega
    refine ⟨_, rrStep_jump_eq tq s _ hdone henq hn, ?_⟩
    refine ⟨hrem, hcom, hpos, ?_, Or.inr ?_, ?_⟩
    · show (enqueueArrivals s.procs s.t s.queue s.nextIdx).2 ≤ s.procs.length
      omega
    · show (enqueueArrivals s.procs s.t s.queue s.nextIdx).2 < s.procs.length
      exact hn
    · intro a ha
      exact absurd ha (List.not_mem_nil a)
  | cons j qrest =>
    have henq : enqueueArrivals s.procs s.t s.queue s.nextIdx
        = (j :: qrest, (enqueueArrivals s.procs s.t s.queue s.nextIdx).2) := by
      rw [← hq1]
    have hq1mem : ∀ a ∈ j :: qrest, a < s.procs.length := by
      intro a ha
      rw [← hq1, e3] at ha
      rcases List.mem_append.1 ha with hold | hnew
      · exact hqlt a hold
      · obtain ⟨h1, h2⟩ := List.mem_range'_1.1 hnew
        omega
    have hjlen : j < s.procs.length := hq1mem j (by simp)
    have hjrem : 1 ≤ (s.procs.getD j defaultProcess).remaining_time :=
      hrem _ (getD_mem s.procs j defaultProcess hjlen)
    have hexec : rrExecTime tq (rrTouch s.t (s.procs.getD j defaultProcess)) = tq := by
      rw [rrExecTime_touch]
      rw [if_neg (by omega)]
    have hp2 : (rrExecP tq s.t (s.procs.getD j defaultProcess)).remaining_time
        = (s.procs.getD j defaultProcess).remaining_time - tq := by
      rw [rrExecP_remaining, if_neg (by omega)]
    have hnz : ¬ (rrExecP tq s.t (s.procs.getD j defaultProcess)).remaining_time = 0 := by
      omega
    obtain ⟨f1, f2, f3, f4, f5⟩ :=
      enqueueArrivals_spec (s.procs.set j (rrExecP tq s.t (s.procs.getD j defaultProcess)))
        (s.t + rrExecTime tq (rrTouch s.t (s.procs.getD j defaultProcess)))
        ((s.procs.set j (rrExecP tq s.t (s.procs.getD j defaultProcess))).length
          - (enqueueArrivals s.procs s.t s.queue s.nextIdx).2)
        qrest (enqueueArrivals s.procs s.t s.queue s.nextIdx).2 (le_refl _)
        (by rw [List.length_set]; omega)
    rw [List.length_set] at f2
    refine ⟨_, rrStep_preempt_eq tq s j qrest _ hdone henq hnz, ?_⟩
    refine ⟨?_, hcom, ?_, ?_, Or.inl ?_, ?_⟩
    · intro p hp
      rcases List.mem_or_eq_of_mem_set hp with hmem | rfl
      · exact hrem p hmem
      · omega
    · show 0 < (s.procs.set j _).length
      rw [List.length_set]
      exact hpos
    · show (enqueueArrivals _ _ qrest _).2 ≤ (s.procs.set j _).length
      rw [List.length_set]
      exact f2
    · simp
    · intro a ha
      rcases List.mem_append.1 ha with h1 | h2
      · rw [f3] at h1
        show a < (s.procs.set j _).length
        rw [List.length_set]
        rcases List.mem_append.1 h1 with hold | hnew
        · exact hq1mem a (List.mem_cons_of_mem _ hold)
        · obtain ⟨hh1, hh2⟩ := List.mem_range'_1.1 hnew
          omega
      · obtain rfl : a = j := by simpa using h2
        show a < (s.procs.set a _).length
        rw [List.length_set]
        exact hjlen

/-- With a non-positive quantum the RR loop never returns, whatever the
fuel. -/
theorem rrLoop_nonpos_none (tq : Int) (htq : tq ≤ 0) :
    ∀ (fuel : Nat) (s : RRState), RRStuck s → rrLoop tq fuel s = none := by
  intro fuel
  induction fuel with
  | zero => intro s _; rfl
  | succ f ih =>
    intro s hs
    obtain ⟨s2, hstep, hs2⟩ := rrStep_nonpos tq htq s hs
    rw [rrLoop, hstep]
    exact ih s2 hs2

theorem RRStuck_init (ps : List Process) (hne : ps ≠ []) (hwf : WellFormed ps) :
    RRStuck (rrInit ps) := by
  have hlen : (sortByArrival ps).length = ps.length := sort_length ps
  have hpos : 0 < ps.length := List.length_pos.2 hne
  refine ⟨?_, rfl, ?_, ?_, Or.inr ?_, ?_⟩
  · intro p hp
    obtain ⟨_, hb, hr, _⟩ := WellFormed_sort ps hwf p hp
    omega
  · show 0 < (sortByArrival ps).length
    omega
  · show 0 ≤ (sortByArrival ps).length
    omega
  · show 0 < (sortByArrival ps).length
    omega
  · intro a ha
    exact absurd ha (List.not_mem_nil a)


/-! ### Round Robin with a large quantum simulates FCFS -/

theorem range1_append (s m n : Nat) :
    List.range' s m ++ List.range' (s + m) n = List.range' s (m + n) := by
  induction m generalizing s with
  | zero => simp
  | succ m ih =>
    rw [List.range'_succ, show s + (m + 1) = (s + 1) + m by omega, List.cons_append,
      ih (s + 1), show m + 1 + n = (m + n) + 1 by omega, List.range'_succ]

/-- Input regime of the degenerate Round Robin run: fresh processes whose
bursts fit inside the quantum. -/
def FitsQuantum (tq : Int) (l : List Process) : Prop :=
  ∀ p ∈ l, p.remaining_time = p.burst_time ∧ 1 ≤ p.burst_time ∧
    p.started = false ∧ p.burst_time ≤ tq

theorem rrLoop_succ_step (tq : Int) (f : Nat) (s s2 : RRState)
    (h : rrStep tq s = .step s2) : rrLoop tq (f + 1) s = rrLoop tq f s2 := by
  rw [rrLoop, h]

theorem rrLoop_succ_halt (tq : Int) (f : Nat) (s : RRState) (ps : List Process)
    (h : rrStep tq s = .halt ps) : rrLoop tq (f + 1) s = some ps := by
  rw [rrLoop, h]

theorem fcfsLoop_cons (t : Int) (p : Process) (rest : List Process) :
    fcfsLoop t (p :: rest)
      = npFinish (if t < p.arrival_time then p.arrival_time else t) p
        :: fcfsLoop ((if t < p.arrival_time then p.arrival_time else t) + p.burst_time) rest :=
  rfl

/-- One work pass of the RR loop in the degenerate regime: the head of the
queue runs to completion in a single slice, producing exactly the record
FCFS would produce, and the arrivals of the slice queue up behind it. -/
theorem rr_fcfs_work (tq : Int) (pre : List Process) (p : Process) (rest : List Process)
    (a : Nat) (t : Int)
    (hwf : FitsQuantum tq (p :: rest))
    (ha : a ≤ (p :: rest).length)
    (harr : ∀ r, r < a → ((p :: rest).getD r defaultProcess).arrival_time ≤ t)
    (hap : p.arrival_time ≤ t) :
    ∃ a2, a2 ≤ rest.length ∧
      rrStep tq ⟨t, pre ++ p :: rest, List.range' pre.length a, pre.length + a, pre.length⟩
        = .step ⟨t + p.burst_time, pre ++ npFinish t p :: rest,
                 List.range' (pre.length + 1) a2, (pre.length + 1) + a2, pre.length + 1⟩ ∧
      (∀ r, r < a2 → (rest.getD r defaultProcess).arrival_time ≤ t + p.burst_time) := by
  obtain ⟨hrem, hb1, hstarted, hbtq⟩ := hwf p (by simp)
  rw [List.length_cons] at ha
  have hlenp : (pre ++ p :: rest).length = pre.length + (rest.length + 1) := by
    rw [List.length_append, List.length_cons]
  have hgetd : (pre ++ p :: rest).getD pre.length defaultProcess = p := by
    have := getD_append_right pre (p :: rest) 0 defaultProcess
    simpa using this
  have hgetdr : ∀ r, (pre ++ p :: rest).getD (pre.length + (1 + r)) defaultProcess
      = rest.getD r defaultProcess := by
    intro r
    have := getD_append_right pre (p :: rest) (1 + r) defaultProcess
    rw [this, show (1 + r) = r + 1 by omega, List.getD_cons_succ]
  have hdone : ¬ (pre.length : Nat) = (pre ++ p :: rest : List Process).length := by
    rw [hlenp]
    omega
  obtain ⟨e1, e2, e3, e4, e5⟩ :=
    enqueueArrivals_spec (pre ++ p :: rest) t
      ((pre ++ p :: rest).length - (pre.length + a))
      (List.range' pre.length a) (pre.length + a) (le_refl _) (by rw [hlenp]; omega)
  set n1v := (enqueueArrivals (pre ++ p :: rest) t (List.range' pre.length a)
      (pre.length + a)).2 with hn1v
  rw [hlenp] at e2
  have ha1pos : pre.length < n1v := by
    by_contra hcon
    have hn1k : n1v = pre.length := by omega
    have hlt : n1v < (pre ++ p :: rest).length := by rw [hlenp]; omega
    have h6 := e5 hlt
    rw [hn1k, hgetd] at h6
    omega
  have hq1 : (enqueueArrivals (pre ++ p :: rest) t (List.range' pre.length a)
      (pre.length + a)).1
      = pre.length :: List.range' (pre.length + 1) (n1v - (pre.length + 1)) := by
    rw [e3, range1_append,
      show a + (n1v - (pre.length + a)) = (n1v - (pre.length + 1)) + 1 by omega,
      List.range'_succ]
  have hpair : (enqueueArrivals (pre ++ p :: rest) t (List.range' pre.length a)
      (pre.length + a))
      = ((enqueueArrivals (pre ++ p :: rest) t (List.range' pre.length a)
          (pre.length + a)).1,
         (enqueueArrivals (pre ++ p :: rest) t (List.range' pre.length a)
          (pre.length + a)).2) := rfl
  have henq : (enqueueArrivals (pre ++ p :: rest) t (List.range' pre.length a)
      (pre.length + a))
      = (pre.length :: List.range' (pre.length + 1) (n1v - (pre.length + 1)), n1v) := by
    rw [hpair, hq1, ← hn1v]
  have hexecp : rrExecTime tq (rrTouch t p) = p.burst_time := by
    rw [rrExecTime_touch, hrem]
    split <;> omega
  have hzp : (rrExecP tq t p).remaining_time = 0 := by
    rw [rrExecP_remaining, hrem]
    split <;> omega
  have hz : (rrExecP tq t ((pre ++ p :: rest).getD pre.length defaultProcess)).remaining_time
      = 0 := by
    rw [hgetd]
    exact hzp
  have hfinp : ({ rrExecP tq t p with completion_time := t + p.burst_time } : Process)
      = npFinish t p := by
    have hb : p.burst_time ≤ tq := hbtq
    have hr : p.remaining_time = p.burst_time := hrem
    have hs : p.started = false := hstarted
    cases p with
    | mk pid parr pburst pprio prem pcomp ptar pwait presp pstart =>
      have hs2 : pstart = false := hs
      have hr2 : prem = pburst := hr
      have hb2 : pburst ≤ tq := hb
      subst hs2
      show Process.mk pid parr pburst pprio
          (prem - (if prem < tq then prem else tq)) (t + pburst)
          ptar pwait (t - parr) true
        = Process.mk pid parr pburst pprio 0 (t + pburst) ptar pwait (t - parr) true
      simp only [Process.mk.injEq, eq_self_iff_true, true_and, and_true]
      split <;> omega
  have hcomplete := rrStep_complete_eq tq
    ⟨t, pre ++ p :: rest, List.range' pre.length a, pre.length + a, pre.length⟩
    pre.length (List.range' (pre.length + 1) (n1v - (pre.length + 1))) n1v
    hdone henq hz
  have hn1le : n1v ≤ ((pre ++ p :: rest).set pre.length (rrExecP tq t p)).length := by
    rw [List.length_set, hlenp]
    omega
  obtain ⟨f1, f2, f3, f4, -⟩ :=
    enqueueArrivals_spec ((pre ++ p :: rest).set pre.length (rrExecP tq t p))
      (t + p.burst_time)
      (((pre ++ p :: rest).set pre.length (rrExecP tq t p)).length - n1v)
      (List.range' (pre.length + 1) (n1v - (pre.length + 1))) n1v (le_refl _) hn1le
  set n2v := (enqueueArrivals ((pre ++ p :: rest).set pre.length (rrExecP tq t p))
      (t + p.burst_time) (List.range' (pre.length + 1) (n1v - (pre.length + 1))) n1v).2
    with hn2v
  rw [List.length_set, hlenp] at f2
  have hmid : (pre.length + 1) + (n1v - (pre.length + 1)) = n1v := by omega
  have hr2 := range1_append (pre.length + 1) (n1v - (pre.length + 1)) (n2v - n1v)
  rw [hmid] at hr2
  have hq2 : (enqueueArrivals ((pre ++ p :: rest).set pre.length (rrExecP tq t p))
      (t + p.burst_time) (List.range' (pre.length + 1) (n1v - (pre.length + 1))) n1v).1
      = List.range' (pre.length + 1) (n2v - (pre.length + 1)) := by
    rw [f3, hr2,
      show (n1v - (pre.length + 1)) + (n2v - n1v) = n2v - (pre.length + 1) by omega]
  refine ⟨n2v - (pre.length + 1), by omega, ?_, ?_⟩
  · rw [hcomplete]
    congr 1
    rw [RRState.mk.injEq]
    refine ⟨?_, ?_, ?_, ?_, rfl⟩
    · show t + rrExecTime tq (rrTouch t ((pre ++ p :: rest).getD pre.length defaultProcess))
        = t + p.burst_time
      rw [hgetd, hexecp]
    · show ((pre ++ p :: rest).set pre.length
          (rrExecP tq t ((pre ++ p :: rest).getD pre.length defaultProcess))).set pre.length
          { rrExecP tq t ((pre ++ p :: rest).getD pre.length defaultProcess) with
            completion_time :=
              t + rrExecTime tq (rrTouch t ((pre ++ p :: rest).getD pre.length defaultProcess)) }
        = pre ++ npFinish t p :: rest
      rw [hgetd, hexecp, List.set_set, hfinp, set_append_mid]
    · show (enqueueArrivals ((pre ++ p :: rest).set pre.length
          (rrExecP tq t ((pre ++ p :: rest).getD pre.length defaultProcess)))
          (t + rrExecTime tq (rrTouch t ((pre ++ p :: rest).getD pre.length defaultProcess)))
          (List.range' (pre.length + 1) (n1v - (pre.length + 1))) n1v).1
        = List.range' (pre.length + 1) (n2v - (pre.length + 1))
      rw [hgetd, hexecp]
      exact hq2
    · show (enqueueArrivals ((pre ++ p :: rest).set pre.length
          (rrExecP tq t ((pre ++ p :: rest).getD pre.length defaultProcess)))
          (t + rrExecTime tq (rrTouch t ((pre ++ p :: rest).getD pre.length defaultProcess)))
          (List.range' (pre.length + 1) (n1v - (pre.length + 1))) n1v).2
        = (pre.length + 1) + (n2v - (pre.length + 1))
      rw [hgetd, hexecp, ← hn2v]
      omega
  · intro r hr
    by_cases hcase : (pre.length + 1) + r < n1v
    · by_cases hcase2 : (r + 1) < a
      · have h1 := harr (r + 1) hcase2
        rw [List.getD_cons_succ] at h1
        omega
      · have h2 := e4 ((pre.length + 1) + r) (by omega) (by omega)
        have h3 : ((pre ++ p :: rest).getD ((pre.length + 1) + r) defaultProcess)
            = rest.getD r defaultProcess := by
          rw [show (pre.length + 1) + r = pre.length + (1 + r) by omega, hgetdr]
        rw [h3] at h2
        omega
    · have h4 := f4 ((pre.length + 1) + r) (by omega) (by omega)
      have h5 : (((pre ++ p :: rest).set pre.length (rrExecP tq t p)).getD
          ((pre.length + 1) + r) defaultProcess) = rest.getD r defaultProcess := by
        rw [getD_set_ne _ _ _ _ _ (by omega),
          show (pre.length + 1) + r = pre.length + (1 + r) by omega, hgetdr]
      rw [h5] at h4
      exact h4

/-- The RR loop on a pending suffix of fresh processes whose bursts fit in
the quantum produces exactly the FCFS schedule of that suffix. `pre` holds
the already-finished prefix, `a` counts suffix processes already queued. -/
theorem rrLoop_fcfs (tq : Int) (suf : List Process) :
    ∀ (pre : List Process) (a : Nat) (t : Int) (fuel : Nat),
    FitsQuantum tq suf → a ≤ suf.length →
    (∀ r, r < a → (suf.getD r defaultProcess).arrival_time ≤ t) →
    2 * suf.length + 1 ≤ fuel →
    rrLoop tq fuel ⟨t, pre ++ suf, List.range' pre.length a, pre.length + a, pre.length⟩
      = some (pre ++ fcfsLoop t suf) := by
  induction suf with
  | nil =>
    intro pre a t fuel _ ha _ hfuel
    have ha0 : a = 0 := by simpa using ha
    subst ha0
    cases fuel with
    | zero => simp at hfuel
    | succ f =>
      have hhalt := rrStep_halt_eq tq
        ⟨t, pre ++ ([] : List Process), List.range' pre.length 0, pre.length + 0, pre.length⟩
        (by simp)
      rw [rrLoop_succ_halt tq f _ _ hhalt]
      simp [fcfsLoop]
  | cons p rest ih =>
    intro pre a t fuel hwf ha harr hfuel
    rw [List.length_cons] at hfuel
    have hwfrest : FitsQuantum tq rest := fun q hq => hwf q (List.mem_cons_of_mem p hq)
    by_cases hpt : p.arrival_time ≤ t
    · obtain ⟨a2, ha2, hstep, harr2⟩ := rr_fcfs_work tq pre p rest a t hwf ha harr hpt
      cases fuel with
      | zero => omega
      | succ f =>
        rw [rrLoop_succ_step tq f _ _ hstep]
        have hfc : fcfsLoop t (p :: rest) = npFinish t p :: fcfsLoop (t + p.burst_time) rest := by
          rw [fcfsLoop_cons, if_neg (by omega)]
        rw [hfc]
        have hih := ih (pre ++ [npFinish t p]) a2 (t + p.burst_time) f hwfrest ha2 harr2
          (by omega)
        have hl : (pre ++ [npFinish t p]).length = pre.length + 1 := by simp
        rw [hl] at hih
        have hap2 : (pre ++ [npFinish t p]) ++ rest = pre ++ npFinish t p :: rest := by simp
        rw [hap2] at hih
        rw [hih]
        simp
    · have ha0 : a = 0 := by
        by_contra h
        have h1 := harr 0 (by omega)
        rw [List.getD_cons_zero] at h1
        omega
      subst ha0
      have hlenp : (pre ++ p :: rest).length = pre.length + (rest.length + 1) := by
        rw [List.length_append, List.length_cons]
      have hgetd : (pre ++ p :: rest).getD pre.length defaultProcess = p := by
        have := getD_append_right pre (p :: rest) 0 defaultProcess
        simpa using this
      have hdone : ¬ (pre.length : Nat) = (pre ++ p :: rest : List Process).length := by
        rw [hlenp]
        omega
      obtain ⟨e1, e2, e3, e4, e5⟩ :=
        enqueueArrivals_spec (pre ++ p :: rest) t
          ((pre ++ p :: rest).length - (pre.length + 0))
          (List.range' pre.length 0) (pre.length + 0) (le_refl _) (by rw [hlenp]; omega)
      set n1v := (enqueueArrivals (pre ++ p :: rest) t (List.range' pre.length 0)
          (pre.length + 0)).2 with hn1v
      have hn1k : n1v = pre.length := by
        by_contra h
        have h6 := e4 pre.length (by omega) (by omega)
        rw [hgetd] at h6
        omega
      have hq1 : (enqueueArrivals (pre ++ p :: rest) t (List.range' pre.length 0)
          (pre.length + 0)).1 = [] := by
        rw [e3, show n1v - (pre.length + 0) = 0 by omega]
        simp
      have hpair : (enqueueArrivals (pre ++ p :: rest) t (List.range' pre.length 0)
          (pre.length + 0))
          = ((enqueueArrivals (pre ++ p :: rest) t (List.range' pre.length 0)
              (pre.length + 0)).1,
             (enqueueArrivals (pre ++ p :: rest) t (List.range' pre.length 0)
              (pre.length + 0)).2) := rfl
      have henq : (enqueueArrivals (pre ++ p :: rest) t (List.range' pre.length 0)
          (pre.length + 0)) = ([], pre.length) := by
        rw [hpair, hq1, ← hn1v, hn1k]
      have hjump := rrStep_jump_eq tq
        ⟨t, pre ++ p :: rest, List.range' pre.length 0, pre.length + 0, pre.length⟩
        pre.length hdone henq (by rw [hlenp]; omega)
      cases fuel with
      | zero => omega
      | succ f =>
        rw [rrLoop_succ_step tq f _ _ hjump, hgetd]
        show rrLoop tq f
            ⟨p.arrival_time, pre ++ p :: rest, List.range' pre.length 0,
             pre.length + 0, pre.length⟩
          = some (pre ++ fcfsLoop t (p :: rest))
        obtain ⟨a2, ha2, hstep, harr2⟩ := rr_fcfs_work tq pre p rest 0 p.arrival_time hwf
          (Nat.zero_le _) (fun r hr => absurd hr (Nat.not_lt_zero r)) (le_refl _)
        cases f with
        | zero => omega
        | succ f2 =>
          rw [rrLoop_succ_step tq f2 _ _ hstep]
          have hfc : fcfsLoop t (p :: rest)
              = npFinish p.arrival_time p
                :: fcfsLoop (p.arrival_time + p.burst_time) rest := by
            rw [fcfsLoop_cons, if_pos (by omega)]
          rw [hfc]
          have hih := ih (pre ++ [npFinish p.arrival_time p]) a2
            (p.arrival_time + p.burst_time) f2 hwfrest ha2 harr2 (by omega)
          have hl : (pre ++ [npFinish p.arrival_time p]).length = pre.length + 1 := by simp
          rw [hl] at hih
          have hap2 : (pre ++ [npFinish p.arrival_time p]) ++ rest
              = pre ++ npFinish p.arrival_time p :: rest := by simp
          rw [hap2] at hih
          rw [hih]
          simp

/-- Top-level degenerate-quantum equivalence: on well-formed input whose
bursts all fit inside the quantum, `rr_schedule` returns exactly the FCFS
result. -/
theorem rr_schedule_eq_fcfs (ps : List Process) (tq : Int) (hwf : WellFormed ps)
    (hq : ∀ p ∈ ps, p.burst_time ≤ tq) :
    rr_schedule ps tq = some (fcfs_schedule ps) := by
  have hfits : FitsQuantum tq (sortByArrival ps) := by
    intro p hp
    have hmem := (List.perm_insertionSort arrLe ps).mem_iff.1 hp
    obtain ⟨_, h1, h2, h3⟩ := hwf p hmem
    exact ⟨h2, h1, h3, hq p hmem⟩
  have hfuel : 2 * (sortByArrival ps).length + 1 ≤ rrFuel ps := by
    have h1 : ps.length ≤ (ps.map (fun p => p.remaining_time.toNat)).sum :=
      ones_le_sum _ ps (fun p hp => by
        obtain ⟨_, hb, hr, _⟩ := hwf p hp
        omega)
    rw [sort_length]
    show 2 * ps.length + 1 ≤ 2 * (ps.map (fun p => p.remaining_time.toNat)).sum + 2
    omega
  have hmain := rrLoop_fcfs tq (sortByArrival ps) [] 0 0 (rrFuel ps) hfits (Nat.zero_le _)
    (fun r hr => absurd hr (Nat.not_lt_zero r)) hfuel
  have hmain2 : rrLoop tq (rrFuel ps) (rrInit ps) = some (fcfsLoop 0 (sortByArrival ps)) :=
    hmain
  show (rrLoop tq (rrFuel ps) (rrInit ps)).map calculate_metrics = some (fcfs_schedule ps)
  rw [hmain2]
  rfl

/-! ### Plumbing for the claim theorems -/

theorem calc_fst (l : List Process) : (calculate_metrics l).1 = l.map setDerived := rfl

theorem setDerived_id (p : Process) : (setDerived p).id = p.id := rfl

theorem setDerived_priority (p : Process) : (setDerived p).priority = p.priority := rfl

theorem setDerived_started (p : Process) : (setDerived p).started = p.started := rfl

theorem setDerived_turnaround (p : Process) :
    (setDerived p).turnaround_time = p.completion_time - p.arrival_time := rfl

/-- Bursts are recoverable from the statics map: a per-member positivity
bound transfers from the input to any output with the same statics map. -/
theorem burst_ge_one_of_statics (out src : List Process)
    (hs : out.map statics = src.map statics) (hwf : ∀ p ∈ src, 1 ≤ p.burst_time) :
    ∀ q ∈ out, 1 ≤ q.burst_time := by
  intro q hq
  have h1 : statics q ∈ src.map statics := by
    rw [← hs]
    exact List.mem_map_of_mem statics hq
  obtain ⟨p, hp, hpe⟩ := List.mem_map.1 h1
  have hb : p.burst_time = q.burst_time := by
    have := congrArg (fun s : String × Int × Int × Int => s.2.2.1) hpe
    simpa [statics] using this
  rw [← hb]
  exact hwf p hp

theorem map_statics_setDerived (l : List Process) :
    (l.map setDerived).map statics = l.map statics := by
  induction l with
  | nil => rfl
  | cons x xs ih => simp [ih, setDerived_statics]

theorem getD_map_lt {α β : Type} (f : α → β) (l : List α) (i : Nat) (d : β) (hd : α)
    (h : i < l.length) : (l.map f).getD i d = f (l.getD i hd) := by
  have h2 : i < (l.map f).length := by simpa using h
  rw [List.getD_eq_getElem?_getD, List.getElem?_eq_getElem h2, List.getElem_map,
    List.getD_eq_getElem?_getD, List.getElem?_eq_getElem h]
  rfl

/-- Processes of the preemption-ordering scenario: A is running when B
arrives exactly at the end of A's first slice. -/
def exA : Process :=
  { id := "A", arrival_time := 0, burst_time := 3, priority := 0,
    remaining_time := 3, completion_time := 0, turnaround_time := 0,
    waiting_time := 0, response_time := -1, started := false }

def exB : Process :=
  { id := "B", arrival_time := 2, burst_time := 4, priority := 0,
    remaining_time := 4, completion_time := 0, turnaround_time := 0,
    waiting_time := 0, response_time := -1, started := false }

/-- A fully completed process whose derived fields are stale: exposes that
`calculate_metrics` rewrites the array. -/
def exDone : Process :=
  { id := "D", arrival_time := 0, burst_time := 2, priority := 0,
    remaining_time := 0, completion_time := 5, turnaround_time := 0,
    waiting_time := 0, response_time := 1, started := true }

/-- SJF tie scenario: two eligible processes share the minimal burst; the
scan keeps the lower index. -/
def exTie : List (Process × Bool) :=
  [({ id := "T1", arrival_time := 0, burst_time := 3, priority := 0,
      remaining_time := 3, completion_time := 0, turnaround_time := 0,
      waiting_time := 0, response_time := -1, started := false }, false),
   ({ id := "T2", arrival_time := 0, burst_time := 2, priority := 0,
      remaining_time := 2, completion_time := 0, turnaround_time := 0,
      waiting_time := 0, response_time := -1, started := false }, false),
   ({ id := "T3", arrival_time := 0, burst_time := 2, priority := 0,
      remaining_time := 2, completion_time := 0, turnaround_time := 0,
      waiting_time := 0, response_time := -1, started := false }, false)]

/-! ### The claims -/

/-- C1: for every well-formed process set and each of the four schedulers
(with a positive quantum for Round Robin), every process in the returned
array ends with `remaining_time = 0` and `completion_time ≥ arrival_time`. -/
theorem scheduler_completion_invariant (ps : List Process) (tq : Int)
    (hwf : WellFormed ps) (htq : 1 ≤ tq) :
    (∀ p ∈ (fcfs_schedule ps).1, p.remaining_time = 0 ∧ p.arrival_time ≤ p.completion_time) ∧
    (∃ res, sjf_non_preemptive_schedule ps = some res ∧
      ∀ p ∈ res.1, p.remaining_time = 0 ∧ p.arrival_time ≤ p.completion_time) ∧
    (∃ res, sjf_preemptive_schedule ps = some res ∧
      ∀ p ∈ res.1, p.remaining_time = 0 ∧ p.arrival_time ≤ p.completion_time) ∧
    (∃ res, rr_schedule ps tq = some res ∧
      ∀ p ∈ res.1, p.remaining_time = 0 ∧ p.arrival_time ≤ p.completion_time) := by
  refine ⟨?_, ?_, ?_, ?_⟩
  · obtain ⟨hl, hs, hq3⟩ := fcfsLoop_out 0 (sortByArrival ps)
    have hb := burst_ge_one_of_statics _ _ hs
      (fun p hp => ((WellFormed_sort ps hwf) p hp).2.1)
    intro p hp
    rw [show (fcfs_schedule ps).1 = (fcfsLoop 0 (sortByArrival ps)).map setDerived
        from rfl] at hp
    obtain ⟨q, hq, rfl⟩ := List.mem_map.1 hp
    obtain ⟨hrem, hresp, himp⟩ := hq3 q hq
    exact ⟨hrem, himp (hb q hq)⟩
  · obtain ⟨out, hout⟩ := sjfNPLoop_init_some ps
    refine ⟨calculate_metrics out, ?_, ?_⟩
    · show (sjfNPLoop (2 * ps.length + 1) 0
          ((sortByArrival ps).map (fun p => (p, false)))).map calculate_metrics
        = some (calculate_metrics out)
      rw [hout]
      rfl
    · obtain ⟨hl, hs, hq3⟩ := sjfNPLoop_out _ _ _ _ hout (NPInv_init ps hwf)
      intro p hp
      rw [show (calculate_metrics out).1 = out.map setDerived from rfl] at hp
      obtain ⟨q, hq, rfl⟩ := List.mem_map.1 hp
      obtain ⟨hrem, hcmp, _⟩ := hq3 q hq
      exact ⟨hrem, hcmp⟩
  · obtain ⟨out, hout⟩ := srtfLoop_init_some ps hwf
    refine ⟨calculate_metrics out, ?_, ?_⟩
    · show (srtfLoop (srtfFuel ps) 0
          ((sortByArrival ps).map (fun p => (p, false)))).map calculate_metrics
        = some (calculate_metrics out)
      rw [hout]
      rfl
    · obtain ⟨hl, hs, hq3⟩ := srtfLoop_out _ _ _ _ hout (SRInv_init ps hwf)
      intro p hp
      rw [show (calculate_metrics out).1 = out.map setDerived from rfl] at hp
      obtain ⟨q, hq, rfl⟩ := List.mem_map.1 hp
      exact hq3 q hq
  · obtain ⟨out, hout⟩ := rrLoop_init_some ps tq htq hwf
    refine ⟨calculate_metrics out, ?_, ?_⟩
    · show (rrLoop tq (rrFuel ps) (rrInit ps)).map calculate_metrics
        = some (calculate_metrics out)
      rw [hout]
      rfl
    · obtain ⟨hl, hs, hq3⟩ := rrLoop_out tq htq _ _ _ hout (RRInv_init ps hwf)
      intro p hp
      rw [show (calculate_metrics out).1 = out.map setDerived from rfl] at hp
      obtain ⟨q, hq, rfl⟩ := List.mem_map.1 hp
      exact hq3 q hq

/-- Witness for C1 at the concrete three-process scenario with quantum 2. -/
theorem scheduler_completion_invariant_witness :
    WellFormed exSet ∧ (1 : Int) ≤ 2 ∧
    (((fcfs_schedule exSet).1.getD 0 defaultProcess).remaining_time = 0 ∧
      ((fcfs_schedule exSet).1.getD 0 defaultProcess).arrival_time
        ≤ ((fcfs_schedule exSet).1.getD 0 defaultProcess).completion_time) :=
  ⟨by decide, by decide,
   (scheduler_completion_invariant exSet 2 (by decide) (by decide)).1 _ (by decide)⟩

/-- C2: on P1(arrival 0, burst 5), P2(arrival 1, burst 3), P3(arrival 2,
burst 8), FCFS completes them at 5, 8, 16 with waiting times 0, 4, 6, and
SRTF (P2 preempts P1 at t=1, P3 never preempts) completes P1 at 8, P2 at 4
and P3 at 16. -/
theorem concrete_scenario_fcfs_srtf :
    ((fcfs_schedule exSet).1.map (fun p => (p.id, p.completion_time, p.waiting_time)))
      = [("P1", 5, 0), ("P2", 8, 4), ("P3", 16, 6)] ∧
    ((sjf_preemptive_schedule exSet).map
        (fun r => r.1.map (fun p => (p.id, p.completion_time))))
      = some [("P1", 8), ("P2", 4), ("P3", 16)] := by
  decide

/-- C3: when a Round Robin slice ends in preemption, the step first
enqueues every process that has arrived by the end of the slice (indices
`n1, n1+1, ...` with arrival time at most the slice-end time, and no
further: the next pending process, if any, arrives strictly later) and
only then re-enqueues the preempted process at the tail of the queue. -/
theorem rr_preemption_enqueue_order (tq : Int) (s : RRState) (j : Nat)
    (qrest : List Nat) (n1 : Nat)
    (hdone : ¬ s.completed = s.procs.length)
    (henq : enqueueArrivals s.procs s.t s.queue s.nextIdx = (j :: qrest, n1))
    (hn1 : n1 ≤ s.procs.length)
    (hnz : ¬ (rrExecP tq s.t (s.procs.getD j defaultProcess)).remaining_time = 0) :
    ∃ s2 n2, rrStep tq s = .step s2 ∧ n1 ≤ n2 ∧
      s2.queue = (qrest ++ List.range' n1 (n2 - n1)) ++ [j] ∧
      (∀ i, n1 ≤ i → i < n2 →
        ((s.procs.set j (rrExecP tq s.t (s.procs.getD j defaultProcess))).getD i
          defaultProcess).arrival_time
          ≤ s.t + rrExecTime tq (rrTouch s.t (s.procs.getD j defaultProcess))) ∧
      (n2 < s.procs.length →
        s.t + rrExecTime tq (rrTouch s.t (s.procs.getD j defaultProcess))
          < ((s.procs.set j (rrExecP tq s.t (s.procs.getD j defaultProcess))).getD n2
              defaultProcess).arrival_time) := by
  obtain ⟨f1, f2, f3, f4, f5⟩ :=
    enqueueArrivals_spec (s.procs.set j (rrExecP tq s.t (s.procs.getD j defaultProcess)))
      (s.t + rrExecTime tq (rrTouch s.t (s.procs.getD j defaultProcess)))
      ((s.procs.set j (rrExecP tq s.t (s.procs.getD j defaultProcess))).length - n1)
      qrest n1 (le_refl _) (by rw [List.length_set]; exact hn1)
  refine ⟨_, _, rrStep_preempt_eq tq s j qrest n1 hdone henq hnz, f1, ?_, f4, ?_⟩
  · show (enqueueArrivals
        (s.procs.set j (rrExecP tq s.t (s.procs.getD j defaultProcess)))
        (s.t + rrExecTime tq (rrTouch s.t (s.procs.getD j defaultProcess))) qrest n1).1
        ++ [j]
      = (qrest ++ List.range' n1
          ((enqueueArrivals
            (s.procs.set j (rrExecP tq s.t (s.procs.getD j defaultProcess)))
            (s.t + rrExecTime tq (rrTouch s.t (s.procs.getD j defaultProcess)))
            qrest n1).2 - n1)) ++ [j]
    rw [f3]
  · intro hlt
    apply f5
    rw [List.length_set]
    exact hlt

/-- Witness for C3: A (arrival 0, burst 3) is preempted at t = 2 with
quantum 2 exactly when B (arrival 2) arrives; B is enqueued before A is
re-enqueued. -/
theorem rr_preemption_enqueue_order_witness :
    (¬ (rrExecP 2 0 ([exA, exB].getD 0 defaultProcess)).remaining_time = 0) ∧
    (∃ s2 n2, rrStep 2 ⟨0, [exA, exB], [0], 1, 0⟩ = .step s2 ∧ 1 ≤ n2 ∧
      s2.queue = (([] : List Nat) ++ List.range' 1 (n2 - 1)) ++ [0] ∧
      (∀ i, 1 ≤ i → i < n2 →
        (([exA, exB].set 0 (rrExecP 2 0 ([exA, exB].getD 0 defaultProcess))).getD i
          defaultProcess).arrival_time
          ≤ 0 + rrExecTime 2 (rrTouch 0 ([exA, exB].getD 0 defaultProcess))) ∧
      (n2 < ([exA, exB] : List Process).length →
        0 + rrExecTime 2 (rrTouch 0 ([exA, exB].getD 0 defaultProcess))
          < (([exA, exB].set 0 (rrExecP 2 0 ([exA, exB].getD 0 defaultProcess))).getD n2
              defaultProcess).arrival_time)) :=
  ⟨by decide,
   rr_preemption_enqueue_order 2 ⟨0, [exA, exB], [0], 1, 0⟩ 0 [] 1
     (by decide) (by decide) (by decide) (by decide)⟩

/-- C4 counterexample: `rr_schedule` does not validate the quantum. With
quantum 0 the very first loop pass already mutates process state (the
dispatched process is marked started), and the schedule never returns
(modelled as `none` at the fuel the function supplies) instead of
rejecting the argument up front. -/
theorem rr_quantum_no_validation_counterexample :
    (rrStepProcs 0 (rrInit [exP1])).map Process.started = [true] ∧
    rr_schedule [exP1] 0 = none := by
  decide

/-- C4 (amended): `rr_schedule` performs no quantum validation at all (the
only check lives in the caller, main.c lines 56-62).  On any nonempty
well-formed input with a non-positive quantum its scheduling loop runs
forever: it returns `none` at every fuel, so the function yields no
result rather than an explicit error. -/
theorem rr_nonpos_quantum_diverges (ps : List Process) (tq : Int)
    (hne : ps ≠ []) (hwf : WellFormed ps) (htq : tq ≤ 0) :
    (∀ fuel, rrLoop tq fuel (rrInit ps) = none) ∧ rr_schedule ps tq = none := by
  have hstuck := RRStuck_init ps hne hwf
  refine ⟨fun fuel => rrLoop_nonpos_none tq htq fuel _ hstuck, ?_⟩
  show (rrLoop tq (rrFuel ps) (rrInit ps)).map calculate_metrics = none
  rw [rrLoop_nonpos_none tq htq _ _ hstuck]
  rfl

/-- Witness for the amended C4 at the one-process set with quantum 0. -/
theorem rr_nonpos_quantum_diverges_witness :
    ([exP1] ≠ ([] : List Process)) ∧ WellFormed [exP1] ∧ (0 : Int) ≤ 0 ∧
    rrLoop 0 7 (rrInit [exP1]) = none ∧ rr_schedule [exP1] 0 = none :=
  ⟨by decide, by decide, by decide,
   (rr_nonpos_quantum_diverges [exP1] 0 (by decide) (by decide) (by decide)).1 7,
   (rr_nonpos_quantum_diverges [exP1] 0 (by decide) (by decide) (by decide)).2⟩

/-- C5: the non-preemptive SJF selection picks, among the incomplete
processes that have arrived by the current time, one with the smallest
burst time, and among equals the one at the lowest index of the
arrival-sorted array; the loop then runs exactly that process to
completion. -/
theorem sjf_selection_minimal_burst (fuel : Nat) (t : Int) (l : List (Process × Bool))
    (j : Nat) (b : Int)
    (hc : ¬ l.countP (fun pd => pd.2) = l.length)
    (hf : findShortestJob t l = some (j, b)) :
    j < l.length ∧ (l.getD j pdDefault).2 = false ∧
    (l.getD j pdDefault).1.arrival_time ≤ t ∧
    b = (l.getD j pdDefault).1.burst_time ∧
    (∀ i, i < l.length → (l.getD i pdDefault).2 = false →
      (l.getD i pdDefault).1.arrival_time ≤ t →
      (l.getD j pdDefault).1.burst_time ≤ (l.getD i pdDefault).1.burst_time) ∧
    (∀ i, i < j → (l.getD i pdDefault).2 = false →
      (l.getD i pdDefault).1.arrival_time ≤ t →
      (l.getD j pdDefault).1.burst_time < (l.getD i pdDefault).1.burst_time) ∧
    sjfNPLoop (fuel + 1) t l
      = sjfNPLoop fuel (t + (l.getD j pdDefault).1.burst_time)
          (l.set j (npFinish t (l.getD j pdDefault).1, true)) := by
  obtain ⟨hj, helig, hb, hmin, hlt⟩ := findShortestJob_some t l j b hf
  obtain ⟨he1, he2⟩ := helig
  refine ⟨hj, he1, he2, hb, ?_, ?_, sjfNPLoop_select fuel t l j b hc hf⟩
  · intro i hi h1 h2
    have := hmin i hi ⟨h1, h2⟩
    omega
  · intro i hi h1 h2
    have := hlt i hi ⟨h1, h2⟩
    omega

/-- Witness for C5 on a tie: bursts 3, 2, 2 all eligible at t = 0; index 1
is selected, strictly better than index 0 and tied with index 2. -/
theorem sjf_selection_minimal_burst_witness :
    (¬ exTie.countP (fun pd => pd.2) = exTie.length) ∧
    findShortestJob 0 exTie = some (1, 2) ∧
    (exTie.getD 1 pdDefault).1.burst_time < (exTie.getD 0 pdDefault).1.burst_time ∧
    (exTie.getD 1 pdDefault).1.burst_time ≤ (exTie.getD 2 pdDefault).1.burst_time :=
  ⟨by decide, by decide,
   (sjf_selection_minimal_burst 0 0 exTie 1 2 (by decide) (by decide)).2.2.2.2.2.1
     0 (by decide) (by decide) (by decide),
   (sjf_selection_minimal_burst 0 0 exTie 1 2 (by decide) (by decide)).2.2.2.2.1
     2 (by decide) (by decide) (by decide)⟩

/-- C6: on well-formed input (positive bursts; positive quantum for Round
Robin) all four schedulers terminate with a result, and no process is ever
lost: the returned array has exactly the length of the input, its
(id, arrival, burst, priority) multiset is a permutation of the input
one, and every process in it has received a completion record (remaining
time zero, completion time at least its arrival). -/
theorem schedulers_terminate (ps : List Process) (tq : Int)
    (hwf : WellFormed ps) (htq : 1 ≤ tq) :
    ((fcfs_schedule ps).1.length = ps.length ∧
      ((fcfs_schedule ps).1.map statics).Perm (ps.map statics) ∧
      ∀ p ∈ (fcfs_schedule ps).1, p.remaining_time = 0 ∧
        p.arrival_time ≤ p.completion_time) ∧
    (∃ res, sjf_non_preemptive_schedule ps = some res ∧ res.1.length = ps.length ∧
      (res.1.map statics).Perm (ps.map statics) ∧
      ∀ p ∈ res.1, p.remaining_time = 0 ∧ p.arrival_time ≤ p.completion_time) ∧
    (∃ res, sjf_preemptive_schedule ps = some res ∧ res.1.length = ps.length ∧
      (res.1.map statics).Perm (ps.map statics) ∧
      ∀ p ∈ res.1, p.remaining_time = 0 ∧ p.arrival_time ≤ p.completion_time) ∧
    (∃ res, rr_schedule ps tq = some res ∧ res.1.length = ps.length ∧
      (res.1.map statics).Perm (ps.map statics) ∧
      ∀ p ∈ res.1, p.remaining_time = 0 ∧ p.arrival_time ≤ p.completion_time) := by
  refine ⟨?_, ?_, ?_, ?_⟩
  · obtain ⟨ho1, ho2, ho3⟩ := fcfsLoop_out 0 (sortByArrival ps)
    have hb := burst_ge_one_of_statics _ _ ho2
      (fun p hp => ((WellFormed_sort ps hwf) p hp).2.1)
    refine ⟨?_, ?_, ?_⟩
    · rw [show (fcfs_schedule ps).1 = (fcfsLoop 0 (sortByArrival ps)).map setDerived
        from rfl, List.length_map, ho1, sort_length]
    · rw [show (fcfs_schedule ps).1 = (fcfsLoop 0 (sortByArrival ps)).map setDerived
        from rfl, map_statics_setDerived, ho2]
      exact sort_statics ps
    · intro p hp
      rw [show (fcfs_schedule ps).1 = (fcfsLoop 0 (sortByArrival ps)).map setDerived
        from rfl] at hp
      obtain ⟨q, hq, rfl⟩ := List.mem_map.1 hp
      obtain ⟨hrem, hresp, himp⟩ := ho3 q hq
      exact ⟨hrem, himp (hb q hq)⟩
  · obtain ⟨out, hout⟩ := sjfNPLoop_init_some ps
    obtain ⟨ho1, ho2, ho3⟩ := sjfNPLoop_out _ _ _ _ hout (NPInv_init ps hwf)
    refine ⟨calculate_metrics out, ?_, ?_, ?_, ?_⟩
    · show (sjfNPLoop (2 * ps.length + 1) 0
          ((sortByArrival ps).map (fun p => (p, false)))).map calculate_metrics
        = some (calculate_metrics out)
      rw [hout]
      rfl
    · rw [show (calculate_metrics out).1 = out.map setDerived from rfl, List.length_map,
        ho1, List.length_map, sort_length]
    · rw [show (calculate_metrics out).1 = out.map setDerived from rfl,
        map_statics_setDerived, ho2, List.map_map]
      show ((sortByArrival ps).map statics).Perm (ps.map statics)
      exact sort_statics ps
    · intro p hp
      rw [show (calculate_metrics out).1 = out.map setDerived from rfl] at hp
      obtain ⟨q, hq, rfl⟩ := List.mem_map.1 hp
      obtain ⟨hrem, hcmp, -⟩ := ho3 q hq
      exact ⟨hrem, hcmp⟩
  · obtain ⟨out, hout⟩ := srtfLoop_init_some ps hwf
    obtain ⟨ho1, ho2, ho3⟩ := srtfLoop_out _ _ _ _ hout (SRInv_init ps hwf)
    refine ⟨calculate_metrics out, ?_, ?_, ?_, ?_⟩
    · show (srtfLoop (srtfFuel ps) 0
          ((sortByArrival ps).map (fun p => (p, false)))).map calculate_metrics
        = some (calculate_metrics out)
      rw [hout]
      rfl
    · rw [show (calculate_metrics out).1 = out.map setDerived from rfl, List.length_map,
        ho1, List.length_map, sort_length]
    · rw [show (calculate_metrics out).1 = out.map setDerived from rfl,
        map_statics_setDerived, ho2, List.map_map]
      show ((sortByArrival ps).map statics).Perm (ps.map statics)
      exact sort_statics ps
    · intro p hp
      rw [show (calculate_metrics out).1 = out.map setDerived from rfl] at hp
      obtain ⟨q, hq, rfl⟩ := List.mem_map.1 hp
      exact ho3 q hq
  · obtain ⟨out, hout⟩ := rrLoop_init_some ps tq htq hwf
    obtain ⟨ho1, ho2, ho3⟩ := rrLoop_out tq htq _ _ _ hout (RRInv_init ps hwf)
    refine ⟨calculate_metrics out, ?_, ?_, ?_, ?_⟩
    · show (rrLoop tq (rrFuel ps) (rrInit ps)).map calculate_metrics
        = some (calculate_metrics out)
      rw [hout]
      rfl
    · rw [show (calculate_metrics out).1 = out.map setDerived from rfl, List.length_map,
        ho1, show (rrInit ps).procs = sortByArrival ps from rfl, sort_length]
    · rw [show (calculate_metrics out).1 = out.map setDerived from rfl,
        map_statics_setDerived, ho2]
      show ((sortByArrival ps).map statics).Perm (ps.map statics)
      exact sort_statics ps
    · intro p hp
      rw [show (calculate_metrics out).1 = out.map setDerived from rfl] at hp
      obtain ⟨q, hq, rfl⟩ := List.mem_map.1 hp
      exact ho3 q hq

/-- Witness for C6 at the concrete three-process scenario with quantum 2:
the FCFS result keeps the length and its last process is completed. -/
theorem schedulers_terminate_witness :
    WellFormed exSet ∧ (1 : Int) ≤ 2 ∧
    (fcfs_schedule exSet).1.length = exSet.length ∧
    ((fcfs_schedule exSet).1.getD 2 defaultProcess).remaining_time = 0 :=
  ⟨by decide, by decide, (schedulers_terminate exSet 2 (by decide) (by decide)).1.1,
   ((schedulers_terminate exSet 2 (by decide) (by decide)).1.2.2 _ (by decide)).1⟩

/-- C7: on well-formed input, whenever the quantum is at least every burst
time (in particular at least their maximum), Round Robin degenerates to
FCFS: `rr_schedule` returns exactly the FCFS result, so every process gets
the same completion time. -/
theorem rr_large_quantum_eq_fcfs (ps : List Process) (tq : Int) (hwf : WellFormed ps)
    (hq : ∀ p ∈ ps, p.burst_time ≤ tq) :
    rr_schedule ps tq = some (fcfs_schedule ps) :=
  rr_schedule_eq_fcfs ps tq hwf hq

/-- Witness for C7: quantum 10 dominates the bursts 5, 3, 8 of the
concrete scenario. -/
theorem rr_large_quantum_eq_fcfs_witness :
    WellFormed exSet ∧ rr_schedule exSet 10 = some (fcfs_schedule exSet) :=
  ⟨by decide, rr_large_quantum_eq_fcfs exSet 10 (by decide) (by decide)⟩

/-- C8: after FCFS or non-preemptive SJF followed by the metrics pass,
every process has `response_time = waiting_time`. -/
theorem nonpreemptive_response_eq_waiting (ps : List Process) (hwf : WellFormed ps) :
    (∀ p ∈ (fcfs_schedule ps).1, p.response_time = p.waiting_time) ∧
    (∃ res, sjf_non_preemptive_schedule ps = some res ∧
      ∀ p ∈ res.1, p.response_time = p.waiting_time) := by
  constructor
  · intro p hp
    rw [show (fcfs_schedule ps).1 = (fcfsLoop 0 (sortByArrival ps)).map setDerived
      from rfl] at hp
    obtain ⟨q, hq, rfl⟩ := List.mem_map.1 hp
    obtain ⟨-, -, hq3⟩ := fcfsLoop_out 0 (sortByArrival ps)
    obtain ⟨-, hresp, -⟩ := hq3 q hq
    rw [setDerived_response, setDerived_waiting]
    omega
  · obtain ⟨out, hout⟩ := sjfNPLoop_init_some ps
    refine ⟨calculate_metrics out, ?_, ?_⟩
    · show (sjfNPLoop (2 * ps.length + 1) 0
          ((sortByArrival ps).map (fun p => (p, false)))).map calculate_metrics
        = some (calculate_metrics out)
      rw [hout]
      rfl
    · obtain ⟨-, -, hq3⟩ := sjfNPLoop_out _ _ _ _ hout (NPInv_init ps hwf)
      intro p hp
      rw [show (calculate_metrics out).1 = out.map setDerived from rfl] at hp
      obtain ⟨q, hq, rfl⟩ := List.mem_map.1 hp
      obtain ⟨-, -, hresp⟩ := hq3 q hq
      rw [setDerived_response, setDerived_waiting]
      omega

/-- Witness for C8: the second process of the concrete FCFS schedule has
response time equal to waiting time. -/
theorem nonpreemptive_response_eq_waiting_witness :
    WellFormed exSet ∧
    ((fcfs_schedule exSet).1.getD 1 defaultProcess).response_time
      = ((fcfs_schedule exSet).1.getD 1 defaultProcess).waiting_time :=
  ⟨by decide, (nonpreemptive_response_eq_waiting exSet (by decide)).1 _ (by decide)⟩

/-- C9 counterexample: `calculate_metrics` is not pure on the process
array.  On a completed process whose stored turnaround is stale (0 with
completion 5), the returned array differs from the input: turnaround and
waiting are rewritten in place (common.c lines 126-129). -/
theorem calculate_metrics_not_pure_counterexample :
    (calculate_metrics [exDone]).1 ≠ [exDone] := by
  decide

/-- C9 (amended): `calculate_metrics` returns the aggregate metrics but
also rewrites every process in place: the eight non-derived fields are
unchanged, while `turnaround_time` becomes `completion_time -
arrival_time` and `waiting_time` becomes `turnaround_time - burst_time`. -/
theorem calculate_metrics_frame (l : List Process) :
    (calculate_metrics l).1.length = l.length ∧
    ∀ i, i < l.length →
      ((calculate_metrics l).1.getD i defaultProcess).id
          = (l.getD i defaultProcess).id ∧
      ((calculate_metrics l).1.getD i defaultProcess).arrival_time
          = (l.getD i defaultProcess).arrival_time ∧
      ((calculate_metrics l).1.getD i defaultProcess).burst_time
          = (l.getD i defaultProcess).burst_time ∧
      ((calculate_metrics l).1.getD i defaultProcess).priority
          = (l.getD i defaultProcess).priority ∧
      ((calculate_metrics l).1.getD i defaultProcess).remaining_time
          = (l.getD i defaultProcess).remaining_time ∧
      ((calculate_metrics l).1.getD i defaultProcess).completion_time
          = (l.getD i defaultProcess).completion_time ∧
      ((calculate_metrics l).1.getD i defaultProcess).response_time
          = (l.getD i defaultProcess).response_time ∧
      ((calculate_metrics l).1.getD i defaultProcess).started
          = (l.getD i defaultProcess).started ∧
      ((calculate_metrics l).1.getD i defaultProcess).turnaround_time
          = (l.getD i defaultProcess).completion_time
            - (l.getD i defaultProcess).arrival_time ∧
      ((calculate_metrics l).1.getD i defaultProcess).waiting_time
          = ((l.getD i defaultProcess).completion_time
            - (l.getD i defaultProcess).arrival_time)
            - (l.getD i defaultProcess).burst_time := by
  refine ⟨by rw [calc_fst, List.length_map], ?_⟩
  intro i hi
  have hmap : (calculate_metrics l).1.getD i defaultProcess
      = setDerived (l.getD i defaultProcess) := by
    rw [calc_fst]
    exact getD_map_lt setDerived l i defaultProcess defaultProcess hi
  rw [hmap]
  exact ⟨rfl, rfl, rfl, rfl, rfl, rfl, rfl, rfl, rfl, rfl⟩

/-- C10: none of the four schedulers touches the static identity of a
process: the multiset of (id, arrival, burst, priority) tuples of the
output array is a permutation of that of the input. -/
theorem statics_preserved (ps : List Process) (tq : Int)
    (hwf : WellFormed ps) (htq : 1 ≤ tq) :
    ((fcfs_schedule ps).1.map statics).Perm (ps.map statics) ∧
    (∃ res, sjf_non_preemptive_schedule ps = some res ∧
      (res.1.map statics).Perm (ps.map statics)) ∧
    (∃ res, sjf_preemptive_schedule ps = some res ∧
      (res.1.map statics).Perm (ps.map statics)) ∧
    (∃ res, rr_schedule ps tq = some res ∧
      (res.1.map statics).Perm (ps.map statics)) := by
  refine ⟨?_, ?_, ?_, ?_⟩
  · rw [show (fcfs_schedule ps).1 = (fcfsLoop 0 (sortByArrival ps)).map setDerived
      from rfl, map_statics_setDerived, (fcfsLoop_out 0 (sortByArrival ps)).2.1]
    exact sort_statics ps
  · obtain ⟨out, hout⟩ := sjfNPLoop_init_some ps
    refine ⟨calculate_metrics out, ?_, ?_⟩
    · show (sjfNPLoop (2 * ps.length + 1) 0
          ((sortByArrival ps).map (fun p => (p, false)))).map calculate_metrics
        = some (calculate_metrics out)
      rw [hout]
      rfl
    · rw [show (calculate_metrics out).1 = out.map setDerived from rfl,
        map_statics_setDerived, (sjfNPLoop_out _ _ _ _ hout (NPInv_init ps hwf)).2.1,
        List.map_map]
      show ((sortByArrival ps).map statics).Perm (ps.map statics)
      exact sort_statics ps
  · obtain ⟨out, hout⟩ := srtfLoop_init_some ps hwf
    refine ⟨calculate_metrics out, ?_, ?_⟩
    · show (srtfLoop (srtfFuel ps) 0
          ((sortByArrival ps).map (fun p => (p, false)))).map calculate_metrics
        = some (calculate_metrics out)
      rw [hout]
      rfl
    · rw [show (calculate_metrics out).1 = out.map setDerived from rfl,
        map_statics_setDerived, (srtfLoop_out _ _ _ _ hout (SRInv_init ps hwf)).2.1,
        List.map_map]
      show ((sortByArrival ps).map statics).Perm (ps.map statics)
      exact sort_statics ps
  · obtain ⟨out, hout⟩ := rrLoop_init_some ps tq htq hwf
    refine ⟨calculate_metrics out, ?_, ?_⟩
    · show (rrLoop tq (rrFuel ps) (rrInit ps)).map calculate_metrics
        = some (calculate_metrics out)
      rw [hout]
      rfl
    · rw [show (calculate_metrics out).1 = out.map setDerived from rfl,
        map_statics_setDerived, (rrLoop_out tq htq _ _ _ hout (RRInv_init ps hwf)).2.1]
      show ((sortByArrival ps).map statics).Perm (ps.map statics)
      exact sort_statics ps

/-- Witness for C10 at the concrete three-process scenario with quantum 2. -/
theorem statics_preserved_witness :
    WellFormed exSet ∧ (1 : Int) ≤ 2 ∧
    (((fcfs_schedule exSet).1.map statics).Perm (exSet.map statics)) :=
  ⟨by decide, by decide, (statics_preserved exSet 2 (by decide) (by decide)).1⟩
